import Mathlib

/-!
Verification of the generalized m×m, k-in-a-row tic-tac-toe engine
(game rules, heuristic evaluation, minimax / alpha-beta / depth-limited search).

The Python source is shallowly embedded:
* a game state is a structure mirroring the Python dict
  `{'board': ..., 'm': ..., 'k': ..., 'moves': ...}`;
* board cells are `Option Player` (`none` = empty);
* Python floats only ever hold integers and halves here, so numeric scores
  are rationals (`ℚ`), and the `±math.inf` search sentinels are the `⊥`/`⊤`
  of `WithBot (WithTop ℚ)`;
* the recursive search functions take an explicit fuel argument
  (`m*m + 1 - moves` at entry points), which makes them structurally
  recursive and kernel-computable; on well-formed states the fuel never
  runs out, so the fueled functions satisfy the source's recursion
  equations exactly;
* Python's `raise ValueError` in `result` becomes `Except String`.
-/

namespace TTT

inductive Player where
  | X : Player
  | O : Player
deriving DecidableEq, Repr

/-- A board cell: empty (`none`, Python `None`) or marked by a player. -/
abbrev Cell := Option Player

/-- A move is a (row, column) pair, as in the Python source. -/
abbrev Move := Nat × Nat

/-- Game state, mirroring the Python dict
`{'board': m×m list of lists, 'm': side, 'k': win length, 'moves': count}`. -/
structure State where
  board : List (List Cell)
  m : Nat
  k : Nat
  moves : Nat
deriving DecidableEq, Repr

/-- Cell lookup `board[r][c]`; total via `getD` (in-range accesses, the only
ones Python performs without raising, agree with the source). -/
def cellAt (s : State) (r c : Nat) : Cell :=
  (s.board.getD r []).getD c none

/-- Number of empty cells on the board. -/
def emptyCount (s : State) : Nat :=
  (s.board.map (fun row => row.countP (· = none))).sum

/-- Well-formed state: the board really is m×m and the move counter equals
the number of filled cells (the spec's data-model invariant). -/
def WF (s : State) : Prop :=
  s.board.length = s.m ∧ (∀ row ∈ s.board, row.length = s.m) ∧
    s.moves + emptyCount s = s.m * s.m

instance : DecidablePred WF := fun s => by
  unfold WF
  exact inferInstance

/-- Source `initial_state(m, k)`. -/
def initial_state (m k : Nat) : State :=
  { board := List.replicate m (List.replicate m none), m := m, k := k, moves := 0 }

/-- Source `player(state)`: X on even move counts, O on odd. -/
def player (s : State) : Player :=
  if s.moves % 2 = 0 then Player.X else Player.O

/-- Source `actions(state)`: `[(r, c) for r in range(m) for c in range(m)
if board[r][c] is None]` (row-major, i.e. lexicographic order). -/
def actions (s : State) : List Move :=
  (List.range s.m).flatMap fun r =>
    (List.range s.m).filterMap fun c =>
      if cellAt s r c = none then some (r, c) else none

/-- Write value `v` at position (r, c) of the board (`List.set` is a no-op
out of range; in-range it is Python's `board[r][c] = v` on the deep copy). -/
def setCell (b : List (List Cell)) (r c : Nat) (v : Cell) : List (List Cell) :=
  b.set r ((b.getD r []).set c v)

/-- The successor state built by the source's `result` once the move has been
validated: the target cell is set to the current player and the move counter
is incremented.  Factored out because the searches only ever apply legal
moves, for which `result` returns exactly this state. -/
def applyU (s : State) (a : Move) : State :=
  { s with board := setCell s.board a.1 a.2 (some (player s)), moves := s.moves + 1 }

/-- Source `result(state, action)`: raises `ValueError` when the target cell
is occupied, otherwise returns the updated deep copy. -/
def result (s : State) (a : Move) : Except String State :=
  if cellAt s a.1 a.2 ≠ none then
    Except.error "Invalid move: cell is already occupied"
  else
    Except.ok (applyU s a)

/-- The scanning loop of `_check_line`: `cur`/`cnt` are the `current`/`count`
variables of the source, `l` the cells still to process. -/
def checkAux (k : Nat) (cur : Cell) (cnt : Nat) : List Cell → Option Player
  | [] => none
  | cell :: rest =>
    if cell ≠ none ∧ cell = cur then
      if k ≤ cnt + 1 then cur else checkAux k cur (cnt + 1) rest
    else
      checkAux k cell (if cell = none then 0 else 1) rest

/-- Source `_check_line(line, k)`: run-length scan for k consecutive equal
non-empty cells; short-circuits lines shorter than k. -/
def check_line (line : List Cell) (k : Nat) : Option Player :=
  if line.length < k then none else checkAux k none 0 line

/-- Column `c` of the board, as gathered by `winner` and the evaluator. -/
def colLine (s : State) (c : Nat) : List Cell :=
  (List.range s.m).map fun r => cellAt s r c

/-- Diagonal segment anchored at (sr, sc), top-left to bottom-right:
`[board[sr+i][sc+i] for i in range(m - max(sr, sc))]`. -/
def diagLine (s : State) (sr sc : Nat) : List Cell :=
  (List.range (s.m - max sr sc)).map fun i => cellAt s (sr + i) (sc + i)

/-- Anti-diagonal segment anchored at (sr, sc), top-right to bottom-left:
`[board[sr+i][sc-i] for i in range(min(m - sr, sc + 1))]`. -/
def adiagLine (s : State) (sr sc : Nat) : List Cell :=
  (List.range (min (s.m - sr) (sc + 1))).map fun i => cellAt s (sr + i) (sc - i)

/-- Anchors `(sr, sc)` of the diagonal segments scanned by `winner` and the
evaluator: `for start_r in range(m - k + 1): for start_c in range(m - k + 1)`
(`m + 1 - k` is the Lean rendering of Python's `m - k + 1`, which is an
empty range when k > m). -/
def diagAnchors (s : State) : List (Nat × Nat) :=
  (List.range (s.m + 1 - s.k)).flatMap fun sr =>
    (List.range (s.m + 1 - s.k)).map fun sc => (sr, sc)

/-- Anchors of the anti-diagonal segments:
`for start_r in range(m - k + 1): for start_c in range(k - 1, m)`. -/
def adiagAnchors (s : State) : List (Nat × Nat) :=
  (List.range (s.m + 1 - s.k)).flatMap fun sr =>
    (List.range (s.m - (s.k - 1))).map fun j => (sr, j + (s.k - 1))

/-- All the lines scanned by `winner`, in the source's scan order:
rows, then columns, then diagonal segments, then anti-diagonal segments. -/
def allLines (s : State) : List (List Cell) :=
  s.board ++ (List.range s.m).map (colLine s) ++
    (diagAnchors s).map (fun p => diagLine s p.1 p.2) ++
    (adiagAnchors s).map (fun p => adiagLine s p.1 p.2)

/-- Source `winner(state)`: scan the lines in order and return the first
player reported by `_check_line` (the source's early `return`). -/
def winner (s : State) : Option Player :=
  (allLines s).findSome? fun l => check_line l s.k

/-- Source `terminal(state)`: a winner exists or the board is full. -/
def terminal (s : State) : Prop :=
  winner s ≠ none ∨ s.moves = s.m * s.m

instance : DecidablePred terminal := fun s => by
  unfold terminal
  exact inferInstance

/-- Source `utility(state)`: `None` off terminal states, else +1, -1 or 0. -/
def utility (s : State) : Option Int :=
  if terminal s then
    match winner s with
    | some Player.X => some 1
    | some Player.O => some (-1)
    | none => some 0
  else none

/-! ### Heuristic evaluation (evaluation.py) -/

/-- One iteration of the `_count_sequences` window loop: add `x_count ** 2`
to the X score when the window `w` holds no O mark, symmetrically for O,
otherwise leave the accumulator alone. -/
def csStep (acc : Int × Int) (w : List Cell) : Int × Int :=
  let xc : Nat := w.countP (· = some Player.X)
  let oc : Nat := w.countP (· = some Player.O)
  if 0 < xc ∧ oc = 0 then (acc.1 + (xc : Int) ^ 2, acc.2)
  else if 0 < oc ∧ xc = 0 then (acc.1, acc.2 + (oc : Int) ^ 2)
  else acc

/-- Source `_count_sequences(line, k)`: slide a k-window over the line,
accumulating `x_count**2` into the X score for windows free of O marks and
symmetrically for O (`len(line) - k + 1` windows; `m + 1 - k` style
subtraction renders Python's empty range for k > len). -/
def count_sequences (line : List Cell) (k : Nat) : Int × Int :=
  (List.range (line.length + 1 - k)).foldl
    (fun acc i => csStep acc ((line.drop i).take k)) (0, 0)

/-- Source `_evaluate_rows`: sum of per-row `x_score - o_score`. -/
def evalRows (s : State) : Int :=
  (s.board.map (fun row =>
    (count_sequences row s.k).1 - (count_sequences row s.k).2)).sum

/-- Source `_evaluate_columns`. -/
def evalCols (s : State) : Int :=
  ((List.range s.m).map (fun c =>
    (count_sequences (colLine s c) s.k).1 - (count_sequences (colLine s c) s.k).2)).sum

/-- Source `_evaluate_diagonals`: same anchored segments as `winner`. -/
def evalDiags (s : State) : Int :=
  ((diagAnchors s).map (fun p =>
    (count_sequences (diagLine s p.1 p.2) s.k).1 -
      (count_sequences (diagLine s p.1 p.2) s.k).2)).sum

/-- Source `_evaluate_anti_diagonals`. -/
def evalADiags (s : State) : Int :=
  ((adiagAnchors s).map (fun p =>
    (count_sequences (adiagLine s p.1 p.2) s.k).1 -
      (count_sequences (adiagLine s p.1 p.2) s.k).2)).sum

/-- Source `_center_control_bonus`: ±0.5 for owning cell (m//2, m//2). -/
def centerBonus (s : State) : ℚ :=
  match cellAt s (s.m / 2) (s.m / 2) with
  | some Player.X => 1 / 2
  | some Player.O => -(1 / 2)
  | none => 0

/-- Source `evaluate(state)`: exact utility on terminal states (`u if u is
not None else 0`), otherwise the four line-family sums plus the center
bonus.  All Python float values arising here are integers or halves, hence
the rational codomain. -/
def evaluate (s : State) : ℚ :=
  if terminal s then
    match utility s with
    | some u => (u : ℚ)
    | none => 0
  else
    ((evalRows s + evalCols s + evalDiags s + evalADiags s : Int) : ℚ) + centerBonus s

/-! ### Move ordering (search.py, order_moves) -/

/-- Search values: rationals extended with the `-math.inf` / `math.inf`
sentinels (`⊥` / `⊤`). -/
abbrev Val := WithBot (WithTop ℚ)

/-- Embed a finite score into the search value type. -/
def qv (q : ℚ) : Val := ((q : WithTop ℚ) : Val)

/-- The sort key produced by the source's `move_priority`: a lexicographically
compared 4-tuple, `(0, 0, r, c)` for an immediately winning move and
`(1, -eval_score, dist, r)` otherwise. -/
abbrev Prio := Nat ×ₗ (ℚ ×ₗ (Nat ×ₗ Nat))

/-- Source `move_priority(move)` inside `order_moves`. -/
def move_priority (s : State) (a : Move) : Prio :=
  let ns := applyU s a
  if winner ns = some (player s) then
    toLex (0, toLex ((0 : ℚ), toLex (a.1, a.2)))
  else
    let evalScore : ℚ :=
      if player s = Player.O then -(evaluate ns) else evaluate ns
    let dist : Nat := Nat.dist a.1 (s.m / 2) + Nat.dist a.2 (s.m / 2)
    toLex (1, toLex (-evalScore, toLex (dist, a.1)))

/-- Lexicographic (row, col) order used by Python's `sorted(moves)`. -/
def lexMove (a b : Move) : Prop := (toLex a : Nat ×ₗ Nat) ≤ toLex b

instance : DecidableRel lexMove := fun a b => by
  unfold lexMove
  exact inferInstance

/-- Python's `sorted(moves)`: a stable sort under lexicographic (row, col).
A stable sort's output is uniquely determined by the total preorder, so
`insertionSort` (stable, and kernel-computable) computes exactly what
timsort does. -/
def lexSort (ms : List Move) : List Move := ms.insertionSort lexMove

/-- Comparison of the source's priority tuples for two moves. -/
def prioLE (s : State) (a b : Move) : Prop :=
  move_priority s a ≤ move_priority s b

instance (s : State) : DecidableRel (prioLE s) := fun a b => by
  unfold prioLE
  exact inferInstance

/-- Source `order_moves(state, moves, use_heuristic)`:
`sorted(moves)` without the heuristic, `sorted(moves, key=move_priority)`
with it (both stable sorts, see `lexSort`). -/
def order_moves (s : State) (moves : List Move) (use_heuristic : Bool) : List Move :=
  if use_heuristic then moves.insertionSort (prioLE s) else lexSort moves

instance (s : State) : IsTotal Move (prioLE s) := ⟨fun a b => le_total _ _⟩

instance (s : State) : IsTrans Move (prioLE s) := ⟨fun _ _ _ h1 h2 => le_trans h1 h2⟩

instance : IsTotal Move lexMove := ⟨fun a b => le_total _ _⟩

instance : IsTrans Move lexMove := ⟨fun _ _ _ h1 h2 => le_trans h1 h2⟩


/-! ### Search (search.py) -/

/-- Terminal value returned by `minimax`/`minimax_ab` (there `utility` is
always an integer, never Python `None`, because the state is terminal). -/
def utilityQ (s : State) : ℚ :=
  match utility s with
  | some u => (u : ℚ)
  | none => 0

/-- The maximizing for-loop of plain `minimax`: running best value and best
move, updated on strict improvement (`value > best_value`). -/
def mmLoopX (recur : State → Val) (s : State) :
    List Move → Val → Option Move → Val × Option Move
  | [], best, bm => (best, bm)
  | a :: rest, best, bm =>
    let v := recur (applyU s a)
    if best < v then mmLoopX recur s rest v (some a)
    else mmLoopX recur s rest best bm

/-- The minimizing for-loop of plain `minimax`. -/
def mmLoopO (recur : State → Val) (s : State) :
    List Move → Val → Option Move → Val × Option Move
  | [], best, bm => (best, bm)
  | a :: rest, best, bm =>
    let v := recur (applyU s a)
    if v < best then mmLoopO recur s rest v (some a)
    else mmLoopO recur s rest best bm

/-- Source `minimax(state)`, with explicit fuel making the recursion
structural; entry points pass `m*m + 1 - moves`, which on well-formed
states exceeds the number of empty cells, so the zero-fuel branch is
unreachable there. -/
def minimaxF : Nat → State → Val × Option Move
  | 0, _ => (qv 0, none)
  | fuel + 1, s =>
    if terminal s then (qv (utilityQ s), none)
    else
      let ms := lexSort (actions s)
      if player s = Player.X then mmLoopX (fun t => (minimaxF fuel t).1) s ms ⊥ none
      else mmLoopO (fun t => (minimaxF fuel t).1) s ms ⊤ none

/-- Source `minimax(state)` at its entry point. -/
def minimax (s : State) : Val × Option Move :=
  minimaxF (s.m * s.m + 1 - s.moves) s

/-- The maximizing for-loop of `minimax_ab` (and of the depth-limited
`search`): update best on strict improvement, raise alpha to the running
best, break on `beta <= alpha`. -/
def abLoopX (recur : State → Val → Val → Val) (s : State) :
    List Move → Val → Val → Val → Option Move → Val × Option Move
  | [], _, _, best, bm => (best, bm)
  | a :: rest, alpha, beta, best, bm =>
    let v := recur (applyU s a) alpha beta
    let best' := if best < v then v else best
    let bm' := if best < v then some a else bm
    let alpha' := max alpha best'
    if beta ≤ alpha' then (best', bm')
    else abLoopX recur s rest alpha' beta best' bm'

/-- The minimizing for-loop of `minimax_ab` (and of `search`). -/
def abLoopO (recur : State → Val → Val → Val) (s : State) :
    List Move → Val → Val → Val → Option Move → Val × Option Move
  | [], _, _, best, bm => (best, bm)
  | a :: rest, alpha, beta, best, bm =>
    let v := recur (applyU s a) alpha beta
    let best' := if v < best then v else best
    let bm' := if v < best then some a else bm
    let beta' := min beta best'
    if beta' ≤ alpha then (best', bm')
    else abLoopO recur s rest alpha beta' best' bm'

/-- Source `minimax_ab(state, alpha, beta, use_ordering)`, fueled. -/
def minimax_abF : Nat → State → Val → Val → Bool → Val × Option Move
  | 0, _, _, _, _ => (qv 0, none)
  | fuel + 1, s, alpha, beta, ord =>
    if terminal s then (qv (utilityQ s), none)
    else
      let ms := if ord then order_moves s (actions s) true else lexSort (actions s)
      if player s = Player.X then
        abLoopX (fun t a b => (minimax_abF fuel t a b ord).1) s ms alpha beta ⊥ none
      else
        abLoopO (fun t a b => (minimax_abF fuel t a b ord).1) s ms alpha beta ⊤ none

/-- Source `minimax_ab` at its entry point (defaults
`alpha = -inf, beta = inf` are supplied at the call sites of the claims). -/
def minimax_ab (s : State) (alpha beta : Val) (ord : Bool) : Val × Option Move :=
  minimax_abF (s.m * s.m + 1 - s.moves) s alpha beta ord

/-- Source `search(state, depth, eval_fn, alpha, beta)`: terminal states
short-circuit to ±1000/0 before the depth test; at depth 0 the evaluator
is consulted; otherwise one ply of alpha-beta with heuristic ordering.
Structural recursion on the depth parameter, exactly as in the source. -/
def searchF : Nat → State → (State → ℚ) → Val → Val → Val × Option Move
  | d, s, ev, alpha, beta =>
    if terminal s then
      (if utility s = some 1 then qv 1000
       else if utility s = some (-1) then qv (-1000)
       else qv 0, none)
    else
      match d with
      | 0 => (qv (ev s), none)
      | d' + 1 =>
        let ms := order_moves s (actions s) true
        if player s = Player.X then
          abLoopX (fun t a b => (searchF d' t ev a b).1) s ms alpha beta ⊥ none
        else
          abLoopO (fun t a b => (searchF d' t ev a b).1) s ms alpha beta ⊤ none

/-- Source `search` at its entry point (default evaluator and window). -/
def search (s : State) (depth : Nat) : Val × Option Move :=
  searchF depth s evaluate ⊥ ⊤

/-! ### Node counting (performance_tests.py)

`minimax_instrumented` / `minimax_ab_instrumented` run the identical
algorithms while incrementing `metrics.nodes_explored` once per call.
Plain minimax explores children unconditionally, so its node count does not
depend on the computed values; alpha-beta's does (via the cutoffs), so the
instrumented version is modelled as value-and-count computed together.
(The `pruning_cutoffs` / `max_depth` metrics are not used by any claim and
are omitted.) -/

/-- Node count of `minimax_instrumented`: one per call. -/
def countMMF : Nat → State → Nat
  | 0, _ => 1
  | fuel + 1, s =>
    if terminal s then 1
    else 1 + ((lexSort (actions s)).map (fun a => countMMF fuel (applyU s a))).sum

/-- Node count of plain minimax from a state (entry fuel). -/
def countMM (s : State) : Nat := countMMF (s.m * s.m + 1 - s.moves) s

/-- Maximizing loop of `minimax_ab_instrumented`: value, move and the node
count accumulated over the explored children. -/
def abcLoopX (recur : State → Val → Val → Val × Nat) (s : State) :
    List Move → Val → Val → Val → Option Move → Nat → (Val × Option Move) × Nat
  | [], _, _, best, bm, n => ((best, bm), n)
  | a :: rest, alpha, beta, best, bm, n =>
    let r := recur (applyU s a) alpha beta
    let v := r.1
    let best' := if best < v then v else best
    let bm' := if best < v then some a else bm
    let alpha' := max alpha best'
    if beta ≤ alpha' then ((best', bm'), n + r.2)
    else abcLoopX recur s rest alpha' beta best' bm' (n + r.2)

/-- Minimizing loop of `minimax_ab_instrumented`. -/
def abcLoopO (recur : State → Val → Val → Val × Nat) (s : State) :
    List Move → Val → Val → Val → Option Move → Nat → (Val × Option Move) × Nat
  | [], _, _, best, bm, n => ((best, bm), n)
  | a :: rest, alpha, beta, best, bm, n =>
    let r := recur (applyU s a) alpha beta
    let v := r.1
    let best' := if v < best then v else best
    let bm' := if v < best then some a else bm
    let beta' := min beta best'
    if beta' ≤ alpha then ((best', bm'), n + r.2)
    else abcLoopO recur s rest alpha beta' best' bm' (n + r.2)

/-- Source `minimax_ab_instrumented`, fueled: the alpha-beta result together
with its `nodes_explored` count. -/
def minimax_abCF : Nat → State → Val → Val → Bool → (Val × Option Move) × Nat
  | 0, _, _, _, _ => ((qv 0, none), 1)
  | fuel + 1, s, alpha, beta, ord =>
    if terminal s then ((qv (utilityQ s), none), 1)
    else
      let ms := if ord then order_moves s (actions s) true else lexSort (actions s)
      if player s = Player.X then
        abcLoopX (fun t a b =>
          ((minimax_abCF fuel t a b ord).1.1, (minimax_abCF fuel t a b ord).2))
          s ms alpha beta ⊥ none 1
      else
        abcLoopO (fun t a b =>
          ((minimax_abCF fuel t a b ord).1.1, (minimax_abCF fuel t a b ord).2))
          s ms alpha beta ⊤ none 1

/-- Node count of `minimax_ab_instrumented` from a state (entry fuel). -/
def countAB (s : State) (alpha beta : Val) (ord : Bool) : Nat :=
  (minimax_abCF (s.m * s.m + 1 - s.moves) s alpha beta ord).2

/-! ### Basic lemmas about the value sentinels and the state space -/

theorem qv_le_qv {a b : ℚ} : qv a ≤ qv b ↔ a ≤ b := by
  simp [qv]

theorem qv_ne_bot (q : ℚ) : qv q ≠ ⊥ := by
  simp [qv]

theorem qv_ne_top (q : ℚ) : qv q ≠ (⊤ : Val) := by
  simp [qv]

theorem mem_actions {s : State} {a : Move} :
    a ∈ actions s ↔ a.1 < s.m ∧ a.2 < s.m ∧ cellAt s a.1 a.2 = none := by
  rcases a with ⟨r, c⟩
  simp only [actions, List.mem_flatMap, List.mem_filterMap, List.mem_range]
  constructor
  · rintro ⟨r', hr', c', hc', h⟩
    split at h
    · rcases Option.some_inj.mp h with h'
      cases h'
      exact ⟨hr', hc', by assumption⟩
    · cases h
  · rintro ⟨hr, hc, h⟩
    exact ⟨r, hr, c, hc, by simp [h]⟩

@[simp] theorem applyU_m (s : State) (a : Move) : (applyU s a).m = s.m := rfl

@[simp] theorem applyU_k (s : State) (a : Move) : (applyU s a).k = s.k := rfl

@[simp] theorem applyU_moves (s : State) (a : Move) : (applyU s a).moves = s.moves + 1 := rfl

theorem applyU_board_length (s : State) (a : Move) :
    (applyU s a).board.length = s.board.length := by
  simp [applyU, setCell]

theorem rowLen_of_WF {s : State} (hb : s.board.length = s.m)
    (hrow : ∀ row ∈ s.board, row.length = s.m) {r : Nat} (hr : r < s.m) :
    (s.board.getD r []).length = s.m := by
  have hlen : r < s.board.length := by rw [hb]; exact hr
  rw [List.getD_eq_getElem?_getD, List.getElem?_eq_getElem hlen, Option.getD_some]
  exact hrow _ (List.getElem_mem hlen)

/-- Cell lookup after a legal move: the played cell now holds the mover's
mark, all other cells are unchanged. -/
theorem cellAt_applyU {s : State} (hw : WF s) {a : Move} (ha : a ∈ actions s) (r c : Nat) :
    cellAt (applyU s a) r c =
      if r = a.1 ∧ c = a.2 then some (player s) else cellAt s r c := by
  obtain ⟨hb, hrow, _⟩ := hw
  obtain ⟨h1, h2, _⟩ := mem_actions.mp ha
  have hlen : a.1 < s.board.length := by rw [hb]; exact h1
  have hrl : (s.board.getD a.1 []).length = s.m := rowLen_of_WF hb hrow h1
  unfold cellAt applyU setCell
  simp only [List.getD_eq_getElem?_getD]
  by_cases hr : r = a.1
  · rw [hr, List.getElem?_set_self hlen, Option.getD_some]
    by_cases hc : c = a.2
    · have hcl : a.2 < (s.board.getD a.1 []).length := by rw [hrl]; exact h2
      rw [hc]
      simp only [and_self, if_true]
      rw [List.getElem?_set_self (by rw [← List.getD_eq_getElem?_getD]; exact hcl)]
      rfl
    · simp only [hc, and_false, if_false]
      rw [List.getElem?_set_ne (fun h => hc h.symm)]
  · simp only [hr, false_and, if_false]
    rw [List.getElem?_set_ne (fun h => hr h.symm)]

theorem emptyCount_applyU {s : State} (hw : WF s) {a : Move} (ha : a ∈ actions s) :
    emptyCount (applyU s a) + 1 = emptyCount s := by
  obtain ⟨hb, hrow, _⟩ := hw
  obtain ⟨h1, h2, h3⟩ := mem_actions.mp ha
  have hlen : a.1 < s.board.length := by rw [hb]; exact h1
  have hrl : (s.board.getD a.1 []).length = s.m := rowLen_of_WF hb hrow h1
  have hcl : a.2 < (s.board.getD a.1 []).length := by rw [hrl]; exact h2
  -- split the board at row a.1 and the row at column a.2
  unfold emptyCount applyU setCell
  simp only
  rw [List.set_eq_take_append_cons_drop, if_pos hlen]
  conv_rhs => rw [← List.take_append_drop a.1 s.board,
    List.drop_eq_getElem_cons hlen]
  have hgetrow : s.board[a.1] = s.board.getD a.1 [] := by
    rw [List.getD_eq_getElem?_getD, List.getElem?_eq_getElem hlen]; rfl
  rw [hgetrow]
  simp only [List.map_append, List.map_cons, List.sum_append, List.sum_cons]
  have hrowcnt : ((s.board.getD a.1 []).set a.2 (some (player s))).countP
      (fun x => decide (x = none)) + 1 =
      (s.board.getD a.1 []).countP (fun x => decide (x = none)) := by
    rw [List.set_eq_take_append_cons_drop, if_pos hcl]
    conv_rhs => rw [← List.take_append_drop a.2 (s.board.getD a.1 []),
      List.drop_eq_getElem_cons hcl]
    have hcell : (s.board.getD a.1 [])[a.2] = none := by
      have h4 : cellAt s a.1 a.2 = none := h3
      unfold cellAt at h4
      rw [List.getD_eq_getElem?_getD (s.board.getD a.1 []),
        List.getElem?_eq_getElem hcl] at h4
      simpa using h4
    simp only [List.countP_append, List.countP_cons, hcell]
    simp
    omega
  omega

theorem WF_applyU {s : State} (hw : WF s) {a : Move} (ha : a ∈ actions s) :
    WF (applyU s a) := by
  have hec := emptyCount_applyU hw ha
  obtain ⟨hb, hrow, hmv⟩ := hw
  refine ⟨?_, ?_, ?_⟩
  · rw [applyU_board_length]; exact hb
  · intro row hr
    simp only [applyU, setCell] at hr
    rcases List.mem_or_eq_of_mem_set hr with h | h
    · exact hrow _ h
    · subst h
      rw [List.length_set]
      obtain ⟨h1, _, _⟩ := mem_actions.mp ha
      have hlen : a.1 < s.board.length := by rw [hb]; exact h1
      exact rowLen_of_WF hb hrow h1
  · simp only [applyU_moves, applyU_m]
    omega

theorem moves_le_of_WF {s : State} (hw : WF s) : s.moves ≤ s.m * s.m := by
  obtain ⟨_, _, hmv⟩ := hw
  omega

theorem actions_ne_nil {s : State} (hw : WF s) (ht : ¬ terminal s) :
    actions s ≠ [] := by
  have hmv : s.moves ≠ s.m * s.m := fun h => ht (Or.inr h)
  obtain ⟨hb, hrow, hsum⟩ := hw
  have hec : 0 < emptyCount s := by omega
  unfold emptyCount at hec
  intro hnil
  -- from a positive empty count extract an empty cell, contradicting hnil
  have : ∃ row ∈ s.board, 0 < row.countP (fun x => decide (x = none)) := by
    by_contra hno
    push_neg at hno
    have : (s.board.map (fun row => row.countP (fun x => decide (x = none)))).sum = 0 := by
      apply List.sum_eq_zero
      intro x hx
      rcases List.mem_map.mp hx with ⟨row, hrm, hrx⟩
      have := hno row hrm
      omega
    omega
  rcases this with ⟨row, hrm, hcnt⟩
  rcases List.getElem_of_mem hrm with ⟨r, hrlt, hrget⟩
  rcases List.exists_mem_iff_getElem.mp (List.countP_pos_iff.mp hcnt) with ⟨c, hclt, hcget⟩
  have hcell : cellAt s r c = none := by
    unfold cellAt
    simp only [List.getD_eq_getElem?_getD]
    rw [List.getElem?_eq_getElem hrlt, Option.getD_some, hrget,
      List.getElem?_eq_getElem hclt, Option.getD_some]
    simpa using hcget
  have hmem : (r, c) ∈ actions s := by
    rw [mem_actions]
    refine ⟨by rw [← hb]; exact hrlt, ?_, hcell⟩
    have := hrow row hrm
    omega
  rw [hnil] at hmem
  cases hmem

/-! ### Recursion equations of the fueled searches on well-formed states -/

theorem minimax_of_terminal {s : State} (hm : s.moves ≤ s.m * s.m) (ht : terminal s) :
    minimax s = (qv (utilityQ s), none) := by
  unfold minimax
  rw [(by omega : s.m * s.m + 1 - s.moves = (s.m * s.m - s.moves) + 1)]
  simp [minimaxF, ht]

theorem minimax_applyU_fuel (s : State) (a : Move) :
    minimaxF (s.m * s.m - s.moves) (applyU s a) = minimax (applyU s a) := by
  unfold minimax
  simp only [applyU_m, applyU_moves]
  rw [(by omega : s.m * s.m + 1 - (s.moves + 1) = s.m * s.m - s.moves)]

theorem minimax_ab_applyU_fuel (s : State) (a : Move) (al be : Val) (ord : Bool) :
    minimax_abF (s.m * s.m - s.moves) (applyU s a) al be ord =
      minimax_ab (applyU s a) al be ord := by
  unfold minimax_ab
  simp only [applyU_m, applyU_moves]
  rw [(by omega : s.m * s.m + 1 - (s.moves + 1) = s.m * s.m - s.moves)]

theorem minimax_abCF_applyU_fuel (s : State) (a : Move) (al be : Val) (ord : Bool) :
    minimax_abCF (s.m * s.m - s.moves) (applyU s a) al be ord =
      (minimax_abCF ((applyU s a).m * (applyU s a).m + 1 - (applyU s a).moves)
        (applyU s a) al be ord) := by
  simp only [applyU_m, applyU_moves]
  rw [(by omega : s.m * s.m + 1 - (s.moves + 1) = s.m * s.m - s.moves)]

theorem mmLoopX_congr {r1 r2 : State → Val} {s : State} {ms : List Move}
    (h : ∀ a ∈ ms, r1 (applyU s a) = r2 (applyU s a)) :
    ∀ best bm, mmLoopX r1 s ms best bm = mmLoopX r2 s ms best bm := by
  induction ms with
  | nil => intro best bm; rfl
  | cons a rest ih =>
    intro best bm
    simp only [mmLoopX]
    rw [h a (List.mem_cons_self a rest)]
    split
    · exact ih (fun b hb => h b (List.mem_cons_of_mem _ hb)) _ _
    · exact ih (fun b hb => h b (List.mem_cons_of_mem _ hb)) _ _

theorem mmLoopO_congr {r1 r2 : State → Val} {s : State} {ms : List Move}
    (h : ∀ a ∈ ms, r1 (applyU s a) = r2 (applyU s a)) :
    ∀ best bm, mmLoopO r1 s ms best bm = mmLoopO r2 s ms best bm := by
  induction ms with
  | nil => intro best bm; rfl
  | cons a rest ih =>
    intro best bm
    simp only [mmLoopO]
    rw [h a (List.mem_cons_self a rest)]
    split
    · exact ih (fun b hb => h b (List.mem_cons_of_mem _ hb)) _ _
    · exact ih (fun b hb => h b (List.mem_cons_of_mem _ hb)) _ _

theorem abLoopX_congr {r1 r2 : State → Val → Val → Val} {s : State} {ms : List Move}
    (h : ∀ a ∈ ms, ∀ al be, r1 (applyU s a) al be = r2 (applyU s a) al be) :
    ∀ al be best bm, abLoopX r1 s ms al be best bm = abLoopX r2 s ms al be best bm := by
  induction ms with
  | nil => intro al be best bm; rfl
  | cons a rest ih =>
    intro al be best bm
    have ih' := ih (fun b hb => h b (List.mem_cons_of_mem _ hb))
    simp only [abLoopX]
    rw [h a (List.mem_cons_self a rest)]
    split
    · split
      · rfl
      · exact ih' _ _ _ _
    · split
      · rfl
      · exact ih' _ _ _ _

theorem abLoopO_congr {r1 r2 : State → Val → Val → Val} {s : State} {ms : List Move}
    (h : ∀ a ∈ ms, ∀ al be, r1 (applyU s a) al be = r2 (applyU s a) al be) :
    ∀ al be best bm, abLoopO r1 s ms al be best bm = abLoopO r2 s ms al be best bm := by
  induction ms with
  | nil => intro al be best bm; rfl
  | cons a rest ih =>
    intro al be best bm
    have ih' := ih (fun b hb => h b (List.mem_cons_of_mem _ hb))
    simp only [abLoopO]
    rw [h a (List.mem_cons_self a rest)]
    split
    · split
      · rfl
      · exact ih' _ _ _ _
    · split
      · rfl
      · exact ih' _ _ _ _

theorem minimax_of_nonterminal {s : State} (hw : WF s) (ht : ¬ terminal s) :
    minimax s =
      if player s = Player.X then
        mmLoopX (fun t => (minimax t).1) s (lexSort (actions s)) ⊥ none
      else
        mmLoopO (fun t => (minimax t).1) s (lexSort (actions s)) ⊤ none := by
  have hm := moves_le_of_WF hw
  unfold minimax
  rw [(by omega : s.m * s.m + 1 - s.moves = (s.m * s.m - s.moves) + 1)]
  simp only [minimaxF, ht, if_false]
  have hcong : ∀ a ∈ lexSort (actions s),
      (fun t => (minimaxF (s.m * s.m - s.moves) t).1) (applyU s a) =
      (fun t => (minimax t).1) (applyU s a) := by
    intro a _
    simp only [minimax_applyU_fuel]
  split
  · exact mmLoopX_congr hcong _ _
  · exact mmLoopO_congr hcong _ _

theorem minimax_ab_of_terminal {s : State} (hm : s.moves ≤ s.m * s.m) (ht : terminal s)
    (al be : Val) (ord : Bool) :
    minimax_ab s al be ord = (qv (utilityQ s), none) := by
  unfold minimax_ab
  rw [(by omega : s.m * s.m + 1 - s.moves = (s.m * s.m - s.moves) + 1)]
  simp [minimax_abF, ht]

theorem minimax_ab_of_nonterminal {s : State} (hw : WF s) (ht : ¬ terminal s)
    (al be : Val) (ord : Bool) :
    minimax_ab s al be ord =
      (let ms := if ord then order_moves s (actions s) true else lexSort (actions s)
       if player s = Player.X then
         abLoopX (fun t a b => (minimax_ab t a b ord).1) s ms al be ⊥ none
       else
         abLoopO (fun t a b => (minimax_ab t a b ord).1) s ms al be ⊤ none) := by
  have hm := moves_le_of_WF hw
  unfold minimax_ab
  rw [(by omega : s.m * s.m + 1 - s.moves = (s.m * s.m - s.moves) + 1)]
  simp only [minimax_abF, ht, if_false]
  have hcong : ∀ (ms : List Move), ∀ a ∈ ms, ∀ al' be',
      (fun t a' b' => (minimax_abF (s.m * s.m - s.moves) t a' b' ord).1) (applyU s a) al' be' =
      (fun t a' b' => (minimax_ab t a' b' ord).1) (applyU s a) al' be' := by
    intro ms a _ al' be'
    simp only [minimax_ab_applyU_fuel]
  split
  · exact abLoopX_congr (hcong _) _ _ _ _
  · exact abLoopO_congr (hcong _) _ _ _ _

/-! ### C7: applyMove / result -/

/-- C7: `result` fails with the invalid-move error exactly on occupied target
cells; on an empty cell it returns the successor with that cell set to the
current player, the move count incremented, and every other cell unchanged;
and (purity of the embedding) applying the same move twice to the same parent
state yields structurally equal successors. -/
theorem result_spec (s : State) (r c : Nat) (hw : WF s) (hr : r < s.m) (hc : c < s.m) :
    ((∃ e, result s (r, c) = Except.error e) ↔ cellAt s r c ≠ none)
  ∧ (cellAt s r c = none →
      result s (r, c) = Except.ok (applyU s (r, c))
      ∧ cellAt (applyU s (r, c)) r c = some (player s)
      ∧ (applyU s (r, c)).moves = s.moves + 1
      ∧ (∀ r' c', ¬ (r' = r ∧ c' = c) →
          cellAt (applyU s (r, c)) r' c' = cellAt s r' c'))
  ∧ (∀ s1 s2, result s (r, c) = Except.ok s1 → result s (r, c) = Except.ok s2 → s1 = s2) := by
  refine ⟨?_, ?_, ?_⟩
  · constructor
    · rintro ⟨e, he⟩ hnone
      unfold result at he
      rw [if_neg (by simp [hnone])] at he
      cases he
    · intro hne
      exact ⟨_, by unfold result; rw [if_pos hne]⟩
  · intro hnone
    have ha : (r, c) ∈ actions s := mem_actions.mpr ⟨hr, hc, hnone⟩
    refine ⟨by unfold result; rw [if_neg (by simp [hnone])], ?_, applyU_moves s (r, c), ?_⟩
    · rw [cellAt_applyU hw ha]
      simp
    · intro r' c' hne
      rw [cellAt_applyU hw ha]
      simp only [if_neg hne]
  · intro s1 s2 h1 h2
    rw [h1] at h2
    exact (Except.ok.injEq _ _).mp h2

/-! ### C5: depth-limited search base cases -/

/-- C5: on any terminal state, at any depth, depth-limited search returns the
±1000/0 sentinel determined by the winner (and no move); on any non-terminal
state with no depth remaining it returns the evaluator's score (and no move)
without recursing. -/
theorem search_base_spec (s : State) (d : Nat) (ev : State → ℚ) (al be : Val) :
    (terminal s → searchF d s ev al be =
      (if winner s = some Player.X then qv 1000
       else if winner s = some Player.O then qv (-1000)
       else qv 0, none))
  ∧ (¬ terminal s → searchF 0 s ev al be = (qv (ev s), none)) := by
  constructor
  · intro ht
    have hu : utility s = if winner s = some Player.X then some 1
        else if winner s = some Player.O then some (-1) else some 0 := by
      unfold utility
      rw [if_pos ht]
      rcases hwin : winner s with _ | p
      · simp
      · cases p <;> simp
    unfold searchF
    rw [if_pos ht, hu]
    rcases hwin : winner s with _ | p
    · simp
    · cases p <;> simp
  · intro ht
    unfold searchF
    rw [if_neg ht]

theorem result_spec_witness :
    WF (initial_state 2 2) ∧ 0 < (initial_state 2 2).m ∧
    result (initial_state 2 2) (0, 0) = Except.ok (applyU (initial_state 2 2) (0, 0)) := by
  refine ⟨by decide, by decide, ?_⟩
  exact ((result_spec (initial_state 2 2) 0 0 (by decide) (by decide) (by decide)).2.1
    (by decide)).1

/-- A finished 3×3 game (X won the top row) used by witnesses. -/
def sWinX : State :=
  { board := [[some Player.X, some Player.X, some Player.X],
              [some Player.O, some Player.O, none],
              [none, none, none]],
    m := 3, k := 3, moves := 5 }

theorem search_base_spec_witness :
    terminal sWinX ∧ ¬ terminal (initial_state 3 3) ∧
    searchF 5 sWinX evaluate ⊥ ⊤ = (qv 1000, none) ∧
    searchF 0 (initial_state 3 3) evaluate ⊥ ⊤ =
      (qv (evaluate (initial_state 3 3)), none) := by
  refine ⟨by decide, by decide, ?_, ?_⟩
  · have h := (search_base_spec sWinX 5 evaluate ⊥ ⊤).1 (by decide)
    rw [h, show winner sWinX = some Player.X from by decide]
    rfl
  · exact (search_base_spec (initial_state 3 3) 0 evaluate ⊥ ⊤).2 (by decide)

/-! ### Loop characterizations for plain minimax -/

/-- Minimax value of the successor reached by move `a`. -/
def childVal (s : State) (a : Move) : Val := (minimax (applyU s a)).1

theorem if_lt_eq_max (a b : Val) : (if a < b then b else a) = max a b := by
  rcases lt_or_ge a b with h | h
  · rw [if_pos h]
    exact (max_eq_right h.le).symm
  · rw [if_neg (not_lt.mpr h)]
    exact (max_eq_left h).symm

theorem if_lt_eq_min (a b : Val) : (if b < a then b else a) = min a b := by
  rcases lt_or_ge b a with h | h
  · rw [if_pos h]
    exact (min_eq_right h.le).symm
  · rw [if_neg (not_lt.mpr h)]
    exact (min_eq_left h).symm

theorem mmLoopX_fst (recur : State → Val) (s : State) :
    ∀ (ms : List Move) (best : Val) (bm : Option Move),
      (mmLoopX recur s ms best bm).1 =
        ms.foldl (fun b a => max b (recur (applyU s a))) best := by
  intro ms
  induction ms with
  | nil => intro best bm; rfl
  | cons a rest ih =>
    intro best bm
    simp only [mmLoopX, List.foldl_cons]
    by_cases h : best < recur (applyU s a)
    · rw [if_pos h, ih, max_eq_right h.le]
    · rw [if_neg h, ih, max_eq_left (not_lt.mp h)]

theorem mmLoopO_fst (recur : State → Val) (s : State) :
    ∀ (ms : List Move) (best : Val) (bm : Option Move),
      (mmLoopO recur s ms best bm).1 =
        ms.foldl (fun b a => min b (recur (applyU s a))) best := by
  intro ms
  induction ms with
  | nil => intro best bm; rfl
  | cons a rest ih =>
    intro best bm
    simp only [mmLoopO, List.foldl_cons]
    by_cases h : recur (applyU s a) < best
    · rw [if_pos h, ih, min_eq_right h.le]
    · rw [if_neg h, ih, min_eq_left (not_lt.mp h)]

theorem foldl_max_ge_init (f : Move → Val) :
    ∀ (l : List Move) (b : Val), b ≤ l.foldl (fun x a => max x (f a)) b := by
  intro l
  induction l with
  | nil => intro b; exact le_refl b
  | cons a rest ih =>
    intro b
    exact le_trans (le_max_left b (f a)) (ih (max b (f a)))

theorem foldl_max_ge_mem (f : Move → Val) :
    ∀ (l : List Move) (b : Val) (a : Move), a ∈ l →
      f a ≤ l.foldl (fun x a => max x (f a)) b := by
  intro l
  induction l with
  | nil => intro b a ha; cases ha
  | cons x rest ih =>
    intro b a ha
    rcases List.mem_cons.mp ha with h | h
    · subst h
      exact le_trans (le_max_right b (f a)) (foldl_max_ge_init f rest _)
    · exact ih _ a h

theorem foldl_max_cases (f : Move → Val) :
    ∀ (l : List Move) (b : Val),
      l.foldl (fun x a => max x (f a)) b = b ∨
        ∃ a ∈ l, l.foldl (fun x a => max x (f a)) b = f a := by
  intro l
  induction l with
  | nil => intro b; exact Or.inl rfl
  | cons x rest ih =>
    intro b
    rcases ih (max b (f x)) with h | ⟨a, ha, h⟩
    · simp only [List.foldl_cons]
      rcases max_choice b (f x) with hm | hm
      · exact Or.inl (by rw [h, hm])
      · exact Or.inr ⟨x, List.mem_cons_self x rest, by rw [h, hm]⟩
    · exact Or.inr ⟨a, List.mem_cons_of_mem _ ha, h⟩

theorem foldl_min_le_init (f : Move → Val) :
    ∀ (l : List Move) (b : Val), l.foldl (fun x a => min x (f a)) b ≤ b := by
  intro l
  induction l with
  | nil => intro b; exact le_refl b
  | cons a rest ih =>
    intro b
    exact le_trans (ih (min b (f a))) (min_le_left b (f a))

theorem foldl_min_le_mem (f : Move → Val) :
    ∀ (l : List Move) (b : Val) (a : Move), a ∈ l →
      l.foldl (fun x a => min x (f a)) b ≤ f a := by
  intro l
  induction l with
  | nil => intro b a ha; cases ha
  | cons x rest ih =>
    intro b a ha
    rcases List.mem_cons.mp ha with h | h
    · subst h
      exact le_trans (foldl_min_le_init f rest _) (min_le_right b (f a))
    · exact ih _ a h

theorem foldl_min_cases (f : Move → Val) :
    ∀ (l : List Move) (b : Val),
      l.foldl (fun x a => min x (f a)) b = b ∨
        ∃ a ∈ l, l.foldl (fun x a => min x (f a)) b = f a := by
  intro l
  induction l with
  | nil => intro b; exact Or.inl rfl
  | cons x rest ih =>
    intro b
    rcases ih (min b (f x)) with h | ⟨a, ha, h⟩
    · simp only [List.foldl_cons]
      rcases min_choice b (f x) with hm | hm
      · exact Or.inl (by rw [h, hm])
      · exact Or.inr ⟨x, List.mem_cons_self x rest, by rw [h, hm]⟩
    · exact Or.inr ⟨a, List.mem_cons_of_mem _ ha, h⟩

/-- Full characterization of the maximizing minimax loop: if no child beats
the running best nothing changes; otherwise the result is the value of the
first strict improver of the running maximum, which is the first child
achieving the overall maximum. -/
theorem mmLoopX_spec (s : State) :
    ∀ (ms : List Move) (best : Val) (bm : Option Move),
      ((∀ a ∈ ms, childVal s a ≤ best) →
        mmLoopX (fun t => (minimax t).1) s ms best bm = (best, bm))
    ∧ (¬ (∀ a ∈ ms, childVal s a ≤ best) →
        ∃ pre a post, ms = pre ++ a :: post ∧
          (mmLoopX (fun t => (minimax t).1) s ms best bm).2 = some a ∧
          (mmLoopX (fun t => (minimax t).1) s ms best bm).1 = childVal s a ∧
          best < childVal s a ∧
          (∀ b ∈ pre, childVal s b < childVal s a) ∧
          (∀ b ∈ post, childVal s b ≤ childVal s a)) := by
  intro ms
  induction ms with
  | nil =>
    intro best bm
    refine ⟨fun _ => rfl, fun h => absurd (fun a ha => absurd ha (List.not_mem_nil a)) h⟩
  | cons a rest ih =>
    intro best bm
    constructor
    · intro hall
      have ha := hall a (List.mem_cons_self a rest)
      simp only [mmLoopX]
      rw [if_neg (show ¬ best < (minimax (applyU s a)).1 from not_lt.mpr ha)]
      exact (ih best bm).1 (fun b hb => hall b (List.mem_cons_of_mem _ hb))
    · intro hnot
      by_cases hlt : best < childVal s a
      · -- the head updates the running best
        have hstep : mmLoopX (fun t => (minimax t).1) s (a :: rest) best bm =
            mmLoopX (fun t => (minimax t).1) s rest (childVal s a) (some a) := by
          simp only [mmLoopX]
          rw [if_pos (show best < (minimax (applyU s a)).1 from hlt)]
          rfl
        by_cases hall : ∀ b ∈ rest, childVal s b ≤ childVal s a
        · have h0 := (ih (childVal s a) (some a)).1 hall
          refine ⟨[], a, rest, rfl, ?_, ?_, hlt, fun b hb => absurd hb (List.not_mem_nil b),
            hall⟩
          · rw [hstep, h0]
          · rw [hstep, h0]
        · have h0 := (ih (childVal s a) (some a)).2 hall
          rcases h0 with ⟨pre, a', post, hms, h2, h1, hgt, hpre, hpost⟩
          refine ⟨a :: pre, a', post, by rw [hms, List.cons_append], ?_, ?_,
            lt_trans hlt hgt, ?_, hpost⟩
          · rw [hstep, h2]
          · rw [hstep, h1]
          · intro b hb
            rcases List.mem_cons.mp hb with h | h
            · subst h; exact hgt
            · exact hpre b h
      · -- the head does not update
        have hstep : mmLoopX (fun t => (minimax t).1) s (a :: rest) best bm =
            mmLoopX (fun t => (minimax t).1) s rest best bm := by
          simp only [mmLoopX]
          rw [if_neg (show ¬ best < (minimax (applyU s a)).1 from hlt)]
        have hnot' : ¬ (∀ b ∈ rest, childVal s b ≤ best) := by
          intro hall
          exact hnot (fun b hb => by
            rcases List.mem_cons.mp hb with h | h
            · subst h; exact not_lt.mp hlt
            · exact hall b h)
        rcases (ih best bm).2 hnot' with ⟨pre, a', post, hms, h2, h1, hgt, hpre, hpost⟩
        refine ⟨a :: pre, a', post, by rw [hms, List.cons_append], ?_, ?_, hgt, ?_, hpost⟩
        · rw [hstep, h2]
        · rw [hstep, h1]
        · intro b hb
          rcases List.mem_cons.mp hb with h | h
          · subst h; exact lt_of_le_of_lt (not_lt.mp hlt) hgt
          · exact hpre b h

/-- Mirror of `mmLoopX_spec` for the minimizing loop. -/
theorem mmLoopO_spec (s : State) :
    ∀ (ms : List Move) (best : Val) (bm : Option Move),
      ((∀ a ∈ ms, best ≤ childVal s a) →
        mmLoopO (fun t => (minimax t).1) s ms best bm = (best, bm))
    ∧ (¬ (∀ a ∈ ms, best ≤ childVal s a) →
        ∃ pre a post, ms = pre ++ a :: post ∧
          (mmLoopO (fun t => (minimax t).1) s ms best bm).2 = some a ∧
          (mmLoopO (fun t => (minimax t).1) s ms best bm).1 = childVal s a ∧
          childVal s a < best ∧
          (∀ b ∈ pre, childVal s a < childVal s b) ∧
          (∀ b ∈ post, childVal s a ≤ childVal s b)) := by
  intro ms
  induction ms with
  | nil =>
    intro best bm
    refine ⟨fun _ => rfl, fun h => absurd (fun a ha => absurd ha (List.not_mem_nil a)) h⟩
  | cons a rest ih =>
    intro best bm
    constructor
    · intro hall
      have ha := hall a (List.mem_cons_self a rest)
      simp only [mmLoopO]
      rw [if_neg (show ¬ (minimax (applyU s a)).1 < best from not_lt.mpr ha)]
      exact (ih best bm).1 (fun b hb => hall b (List.mem_cons_of_mem _ hb))
    · intro hnot
      by_cases hlt : childVal s a < best
      · have hstep : mmLoopO (fun t => (minimax t).1) s (a :: rest) best bm =
            mmLoopO (fun t => (minimax t).1) s rest (childVal s a) (some a) := by
          simp only [mmLoopO]
          rw [if_pos (show (minimax (applyU s a)).1 < best from hlt)]
          rfl
        by_cases hall : ∀ b ∈ rest, childVal s a ≤ childVal s b
        · have h0 := (ih (childVal s a) (some a)).1 hall
          refine ⟨[], a, rest, rfl, ?_, ?_, hlt, fun b hb => absurd hb (List.not_mem_nil b),
            hall⟩
          · rw [hstep, h0]
          · rw [hstep, h0]
        · have h0 := (ih (childVal s a) (some a)).2 hall
          rcases h0 with ⟨pre, a', post, hms, h2, h1, hgt, hpre, hpost⟩
          refine ⟨a :: pre, a', post, by rw [hms, List.cons_append], ?_, ?_,
            lt_trans hgt hlt, ?_, hpost⟩
          · rw [hstep, h2]
          · rw [hstep, h1]
          · intro b hb
            rcases List.mem_cons.mp hb with h | h
            · subst h; exact hgt
            · exact hpre b h
      · have hstep : mmLoopO (fun t => (minimax t).1) s (a :: rest) best bm =
            mmLoopO (fun t => (minimax t).1) s rest best bm := by
          simp only [mmLoopO]
          rw [if_neg (show ¬ (minimax (applyU s a)).1 < best from hlt)]
        have hnot' : ¬ (∀ b ∈ rest, best ≤ childVal s b) := by
          intro hall
          exact hnot (fun b hb => by
            rcases List.mem_cons.mp hb with h | h
            · subst h; exact not_lt.mp hlt
            · exact hall b h)
        rcases (ih best bm).2 hnot' with ⟨pre, a', post, hms, h2, h1, hgt, hpre, hpost⟩
        refine ⟨a :: pre, a', post, by rw [hms, List.cons_append], ?_, ?_, hgt, ?_, hpost⟩
        · rw [hstep, h2]
        · rw [hstep, h1]
        · intro b hb
          rcases List.mem_cons.mp hb with h | h
          · subst h; exact lt_of_lt_of_le hgt (not_lt.mp hlt)
          · exact hpre b h

theorem lexSort_perm (ms : List Move) : (lexSort ms).Perm ms :=
  List.perm_insertionSort _ _

theorem lexSort_sorted (ms : List Move) : (lexSort ms).Pairwise lexMove :=
  List.sorted_insertionSort lexMove ms

/-- On well-formed states the minimax value is finite: never `-inf`/`inf`. -/
theorem minimax_fst_ne :
    ∀ (n : Nat) (s : State), s.m * s.m - s.moves ≤ n → WF s →
      (minimax s).1 ≠ ⊥ ∧ (minimax s).1 ≠ ⊤ := by
  intro n
  induction n with
  | zero =>
    intro s hn hw
    have ht : terminal s := Or.inr (by have := moves_le_of_WF hw; omega)
    rw [minimax_of_terminal (moves_le_of_WF hw) ht]
    exact ⟨qv_ne_bot _, qv_ne_top _⟩
  | succ n ih =>
    intro s hn hw
    by_cases ht : terminal s
    · rw [minimax_of_terminal (moves_le_of_WF hw) ht]
      exact ⟨qv_ne_bot _, qv_ne_top _⟩
    · have hmlt : s.moves < s.m * s.m := by
        have := moves_le_of_WF hw
        rcases lt_or_eq_of_le this with h | h
        · exact h
        · exact absurd (Or.inr h) ht
      have hch : ∀ a ∈ lexSort (actions s), childVal s a ≠ ⊥ ∧ childVal s a ≠ ⊤ := by
        intro a ha
        have ha' : a ∈ actions s := (lexSort_perm (actions s)).mem_iff.mp ha
        exact ih (applyU s a) (by simp only [applyU_m, applyU_moves]; omega)
          (WF_applyU hw ha')
      have hne : lexSort (actions s) ≠ [] := by
        intro h
        have hp := lexSort_perm (actions s)
        rw [h] at hp
        exact actions_ne_nil hw ht hp.symm.eq_nil
      rw [minimax_of_nonterminal hw ht]
      rcases List.exists_mem_of_ne_nil _ hne with ⟨a0, ha0⟩
      split
      · rw [mmLoopX_fst]
        constructor
        · intro hbot
          have h1 := foldl_max_ge_mem (fun a => (minimax (applyU s a)).1)
            (lexSort (actions s)) ⊥ a0 ha0
          rw [hbot] at h1
          exact (hch a0 ha0).1 (le_bot_iff.mp h1)
        · rcases foldl_max_cases (fun a => (minimax (applyU s a)).1)
            (lexSort (actions s)) ⊥ with h | ⟨a, ha, h⟩
          · rw [h]; exact bot_ne_top
          · rw [h]; exact (hch a ha).2
      · rw [mmLoopO_fst]
        constructor
        · rcases foldl_min_cases (fun a => (minimax (applyU s a)).1)
            (lexSort (actions s)) ⊤ with h | ⟨a, ha, h⟩
          · rw [h]; exact top_ne_bot
          · rw [h]; exact (hch a ha).1
        · intro htop
          have h1 := foldl_min_le_mem (fun a => (minimax (applyU s a)).1)
            (lexSort (actions s)) ⊤ a0 ha0
          rw [htop] at h1
          exact (hch a0 ha0).2 (top_le_iff.mp h1)

theorem foldl_max_le_of (f : Move → Val) :
    ∀ (l : List Move) (b x : Val), b ≤ x → (∀ a ∈ l, f a ≤ x) →
      l.foldl (fun y a => max y (f a)) b ≤ x := by
  intro l
  induction l with
  | nil => intro b x hb _; exact hb
  | cons a rest ih =>
    intro b x hb hl
    exact ih _ x (max_le hb (hl a (List.mem_cons_self a rest)))
      (fun c hc => hl c (List.mem_cons_of_mem _ hc))

theorem le_foldl_min_of (f : Move → Val) :
    ∀ (l : List Move) (b x : Val), x ≤ b → (∀ a ∈ l, x ≤ f a) →
      x ≤ l.foldl (fun y a => min y (f a)) b := by
  intro l
  induction l with
  | nil => intro b x hb _; exact hb
  | cons a rest ih =>
    intro b x hb hl
    exact ih _ x (le_min hb (hl a (List.mem_cons_self a rest)))
      (fun c hc => hl c (List.mem_cons_of_mem _ hc))

/-! ### Alpha-beta loop master lemmas (Knuth-Moore style, fail-soft) -/

theorem abLoopX_cons_eq (recur : State → Val → Val → Val) (s : State) (a : Move)
    (rest : List Move) (al be best : Val) (bm : Option Move) :
    abLoopX recur s (a :: rest) al be best bm =
      if be ≤ max al (max best (recur (applyU s a) al be)) then
        (max best (recur (applyU s a) al be),
         if best < recur (applyU s a) al be then some a else bm)
      else
        abLoopX recur s rest (max al (max best (recur (applyU s a) al be))) be
          (max best (recur (applyU s a) al be))
          (if best < recur (applyU s a) al be then some a else bm) := by
  simp only [abLoopX, if_lt_eq_max]

theorem abLoopO_cons_eq (recur : State → Val → Val → Val) (s : State) (a : Move)
    (rest : List Move) (al be best : Val) (bm : Option Move) :
    abLoopO recur s (a :: rest) al be best bm =
      if min be (min best (recur (applyU s a) al be)) ≤ al then
        (min best (recur (applyU s a) al be),
         if recur (applyU s a) al be < best then some a else bm)
      else
        abLoopO recur s rest al (min be (min best (recur (applyU s a) al be)))
          (min best (recur (applyU s a) al be))
          (if recur (applyU s a) al be < best then some a else bm) := by
  simp only [abLoopO, if_lt_eq_min]

/-- Fail-soft bounds for the maximizing alpha-beta loop.  `g` is the value
plain minimax would compute continuing from `best`; the loop's result is
exact when it lands strictly inside the (alpha, beta) window, an upper bound
on `g` when it fails low, and a lower bound when it fails high. -/
theorem abLoopX_m (s : State) (be : Val) (recur : State → Val → Val → Val) :
    ∀ (ms : List Move),
      (∀ a ∈ ms, ∀ al' : Val, al' < be →
        ((recur (applyU s a) al' be ≤ al' → childVal s a ≤ recur (applyU s a) al' be) ∧
         (be ≤ recur (applyU s a) al' be → recur (applyU s a) al' be ≤ childVal s a) ∧
         (al' < recur (applyU s a) al' be → recur (applyU s a) al' be < be →
           recur (applyU s a) al' be = childVal s a))) →
      ∀ (al best : Val) (bm : Option Move) (v g : Val),
        (abLoopX recur s ms al be best bm).1 = v →
        ms.foldl (fun x a => max x (childVal s a)) best = g →
        best ≤ al → al < be →
        best ≤ v ∧ (v ≤ al → g ≤ v) ∧ (be ≤ v → v ≤ g) ∧ (al < v → v < be → v = g) := by
  intro ms
  induction ms with
  | nil =>
    intro _ al best bm v g hv hg hba hab
    rw [← hv, ← hg]
    exact ⟨le_refl best, fun h => le_refl best, fun h => le_refl best, fun _ _ => rfl⟩
  | cons a rest ih =>
    intro hrec al best bm v g hv hg hba hab
    have H := hrec a (List.mem_cons_self a rest) al hab
    rw [abLoopX_cons_eq] at hv
    rw [List.foldl_cons] at hg
    set w := recur (applyU s a) al be with hw
    set c := childVal s a with hc
    by_cases hbr : be ≤ max al (max best w)
    · -- beta cutoff after the head child
      rw [if_pos hbr] at hv
      have hbw : be ≤ max best w := by
        rcases le_max_iff.mp hbr with h | h
        · exact absurd h (not_le.mpr hab)
        · exact h
      have hbw' : max best w = w := by
        rcases max_choice best w with h | h
        · rw [h] at hbw
          exact absurd hbw (not_le.mpr (lt_of_le_of_lt hba hab))
        · exact h
      rw [hbw'] at hv hbw
      have hv' : w = v := hv
      have hwc : w ≤ c := H.2.1 hbw
      refine ⟨?_, ?_, ?_, ?_⟩
      · rw [← hv']
        exact le_trans hba (le_trans hab.le hbw)
      · intro hva
        rw [← hv'] at hva
        exact absurd (lt_of_lt_of_le hab (hbw.trans hva)) (lt_irrefl al)
      · intro _
        rw [← hv', ← hg]
        exact le_trans hwc (le_trans (le_max_right best c)
          (foldl_max_ge_init (childVal s) rest _))
      · intro _ hvb
        rw [← hv'] at hvb
        exact absurd (lt_of_le_of_lt hbw hvb) (lt_irrefl be)
    · -- no cutoff: continue with the tail
      rw [if_neg hbr] at hv
      have hab' : max al (max best w) < be := not_le.mp hbr
      have hrec' := fun b hb => hrec b (List.mem_cons_of_mem _ hb)
      obtain ⟨i1, i2, i3, i4⟩ := ih hrec' (max al (max best w)) (max best w)
        (if best < w then some a else bm) v
        (rest.foldl (fun x a => max x (childVal s a)) (max best w)) hv rfl
        (le_max_right _ _) hab'
      by_cases hwa : w ≤ al
      · -- head child failed low: its true value is also at most w
        have hcw : c ≤ w := H.1 hwa
        have hma : max al (max best w) = al := max_eq_left (max_le hba hwa)
        rw [hma] at i2 i4
        have hbestv : best ≤ v := le_trans (le_max_left best w) i1
        have hwv : w ≤ v := le_trans (le_max_right best w) i1
        refine ⟨hbestv, ?_, ?_, ?_⟩
        · intro hva
          rw [← hg]
          refine foldl_max_le_of _ rest (max best c) v
            (max_le hbestv (le_trans hcw hwv)) ?_
          intro b hb
          exact le_trans (foldl_max_ge_mem (childVal s) rest (max best w) b hb) (i2 hva)
        · intro hbv
          have hvg' := i3 hbv
          rcases foldl_max_cases (childVal s) rest (max best w) with hcase | ⟨b, hb, hcase⟩
          · rw [hcase] at hvg'
            have hlt : max best w < v :=
              max_lt (lt_of_le_of_lt hba (lt_of_lt_of_le hab hbv))
                (lt_of_le_of_lt hwa (lt_of_lt_of_le hab hbv))
            exact absurd (lt_of_lt_of_le hlt hvg') (lt_irrefl _)
          · rw [hcase] at hvg'
            rw [← hg]
            exact le_trans hvg' (foldl_max_ge_mem (childVal s) rest (max best c) b hb)
        · intro hav hvb
          have hvg' := i4 hav hvb
          rw [← hg]
          have hle1 : v ≤ rest.foldl (fun x a => max x (childVal s a)) (max best c) := by
            rcases foldl_max_cases (childVal s) rest (max best w) with hcase | ⟨b, hb, hcase⟩
            · rw [hcase] at hvg'
              have : v ≤ al := hvg'.le.trans (max_le hba hwa)
              exact absurd (lt_of_lt_of_le hav this) (lt_irrefl al)
            · rw [hcase] at hvg'
              rw [hvg']
              exact foldl_max_ge_mem (childVal s) rest (max best c) b hb
          have hle2 : rest.foldl (fun x a => max x (childVal s a)) (max best c) ≤ v := by
            refine foldl_max_le_of _ rest (max best c) v
              (max_le (le_trans hba hav.le) (le_trans (hcw.trans hwa) hav.le)) ?_
            intro b hb
            exact le_trans (foldl_max_ge_mem (childVal s) rest (max best w) b hb) hvg'.ge
          exact le_antisymm hle1 hle2
      · -- head child value is inside the window: exact by the child bound
        have haw : al < w := not_le.mp hwa
        have hwb : w < be := by
          rcases max_lt_iff.mp hab' with ⟨_, h⟩
          exact (max_lt_iff.mp h).2
        have hwec : w = c := H.2.2 haw hwb
        have hbw' : max best w = w := max_eq_right (le_trans hba haw.le)
        have hma : max al (max best w) = w := by
          rw [hbw']
          exact max_eq_right haw.le
        rw [hma] at i2 i4
        rw [hbw'] at i1 i2 i3 i4
        have hgg' : rest.foldl (fun x a => max x (childVal s a)) (max best c) =
            rest.foldl (fun x a => max x (childVal s a)) w := by
          rw [← hwec, hbw']
        refine ⟨le_trans (le_trans hba haw.le) i1, ?_, ?_, ?_⟩
        · intro hva
          exact absurd (lt_of_lt_of_le haw (le_trans i1 hva)) (lt_irrefl al)
        · intro hbv
          rw [← hg, hgg']
          exact i3 hbv
        · intro hav hvb
          rw [← hg, hgg']
          rcases eq_or_lt_of_le i1 with heq | hlt
          · have h1 := i2 heq.ge
            exact le_antisymm (heq.symm.le.trans (foldl_max_ge_init (childVal s) rest w)) h1
          · exact i4 hlt hvb

/-- Mirror of `abLoopX_m` for the minimizing alpha-beta loop (here alpha is
fixed and beta tightens). -/
theorem abLoopO_m (s : State) (al : Val) (recur : State → Val → Val → Val) :
    ∀ (ms : List Move),
      (∀ a ∈ ms, ∀ be' : Val, al < be' →
        ((recur (applyU s a) al be' ≤ al → childVal s a ≤ recur (applyU s a) al be') ∧
         (be' ≤ recur (applyU s a) al be' → recur (applyU s a) al be' ≤ childVal s a) ∧
         (al < recur (applyU s a) al be' → recur (applyU s a) al be' < be' →
           recur (applyU s a) al be' = childVal s a))) →
      ∀ (be best : Val) (bm : Option Move) (v g : Val),
        (abLoopO recur s ms al be best bm).1 = v →
        ms.foldl (fun x a => min x (childVal s a)) best = g →
        be ≤ best → al < be →
        v ≤ best ∧ (v ≤ al → g ≤ v) ∧ (be ≤ v → v ≤ g) ∧ (al < v → v < be → v = g) := by
  intro ms
  induction ms with
  | nil =>
    intro _ be best bm v g hv hg hbb hab
    rw [← hv, ← hg]
    exact ⟨le_refl best, fun h => le_refl best, fun h => le_refl best, fun _ _ => rfl⟩
  | cons a rest ih =>
    intro hrec be best bm v g hv hg hbb hab
    have H := hrec a (List.mem_cons_self a rest) be hab
    rw [abLoopO_cons_eq] at hv
    rw [List.foldl_cons] at hg
    set w := recur (applyU s a) al be with hw
    set c := childVal s a with hc
    by_cases hbr : min be (min best w) ≤ al
    · -- alpha cutoff after the head child
      rw [if_pos hbr] at hv
      have haw : min best w ≤ al := by
        rcases min_le_iff.mp hbr with h | h
        · exact absurd h (not_le.mpr hab)
        · exact h
      have hbw' : min best w = w := by
        rcases min_choice best w with h | h
        · rw [h] at haw
          exact absurd (lt_of_lt_of_le hab hbb) (not_lt.mpr haw)
        · exact h
      rw [hbw'] at hv haw
      have hv' : w = v := hv
      have hcw : c ≤ w := H.1 haw
      refine ⟨?_, ?_, ?_, ?_⟩
      · rw [← hv']
        rw [← hbw']
        exact min_le_left best w
      · intro _
        rw [← hv', ← hg]
        exact le_trans (foldl_min_le_init (childVal s) rest _)
          (le_trans (min_le_right best c) hcw)
      · intro hbv
        rw [← hv'] at hbv
        exact absurd (lt_of_lt_of_le hab (hbv.trans haw)) (lt_irrefl al)
      · intro hav _
        rw [← hv'] at hav
        exact absurd (lt_of_lt_of_le hav haw) (lt_irrefl al)
    · -- no cutoff: continue with the tail
      rw [if_neg hbr] at hv
      have hab' : al < min be (min best w) := not_le.mp hbr
      have hrec' := fun b hb => hrec b (List.mem_cons_of_mem _ hb)
      obtain ⟨i1, i2, i3, i4⟩ := ih hrec' (min be (min best w)) (min best w)
        (if w < best then some a else bm) v
        (rest.foldl (fun x a => min x (childVal s a)) (min best w)) hv rfl
        (min_le_right _ _) hab'
      by_cases hwb : be ≤ w
      · -- head child failed high: its true value is also at least w
        have hwc : w ≤ c := H.2.1 hwb
        have hmb : min be (min best w) = be :=
          min_eq_left (le_min hbb hwb)
        rw [hmb] at i3 i4
        have hvbest : v ≤ best := le_trans i1 (min_le_left best w)
        have hvw : v ≤ w := le_trans i1 (min_le_right best w)
        refine ⟨hvbest, ?_, ?_, ?_⟩
        · intro hva
          have hvg' := i2 hva
          rcases foldl_min_cases (childVal s) rest (min best w) with hcase | ⟨b, hb, hcase⟩
          · rw [hcase] at hvg'
            have hlt : v < min best w :=
              lt_min (lt_of_le_of_lt hva (lt_of_lt_of_le hab hbb))
                (lt_of_le_of_lt hva (lt_of_lt_of_le hab hwb))
            exact absurd (lt_of_le_of_lt hvg' hlt) (lt_irrefl _)
          · rw [hcase] at hvg'
            rw [← hg]
            exact le_trans (foldl_min_le_mem (childVal s) rest (min best c) b hb) hvg'
        · intro hbv
          have hvg' := i3 hbv
          rw [← hg]
          refine le_foldl_min_of _ rest (min best c) v
            (le_min hvbest (le_trans hvw hwc)) ?_
          intro b hb
          exact le_trans hvg' (foldl_min_le_mem (childVal s) rest (min best w) b hb)
        · intro hav hvb
          have hvg' := i4 hav hvb
          rw [← hg]
          have hle1 : v ≤ rest.foldl (fun x a => min x (childVal s a)) (min best c) := by
            refine le_foldl_min_of _ rest (min best c) v
              (le_min (le_trans hvb.le hbb) (le_trans (le_trans hvb.le hwb) hwc)) ?_
            intro b hb
            exact le_trans hvg'.le (foldl_min_le_mem (childVal s) rest (min best w) b hb)
          have hle2 : rest.foldl (fun x a => min x (childVal s a)) (min best c) ≤ v := by
            rcases foldl_min_cases (childVal s) rest (min best w) with hcase | ⟨b, hb, hcase⟩
            · rw [hcase] at hvg'
              have : be ≤ v := hvg'.ge.trans' (le_min hbb hwb)
              exact absurd (lt_of_le_of_lt this hvb) (lt_irrefl be)
            · rw [hcase] at hvg'
              rw [hvg']
              exact foldl_min_le_mem (childVal s) rest (min best c) b hb
          exact le_antisymm hle1 hle2
      · -- head child value is inside the window: exact by the child bound
        have hwb' : w < be := not_le.mp hwb
        have haw : al < w := by
          rcases lt_min_iff.mp hab' with ⟨_, h⟩
          exact (lt_min_iff.mp h).2
        have hwec : w = c := H.2.2 haw hwb'
        have hbw' : min best w = w := min_eq_right (le_trans hwb'.le hbb)
        have hma : min be (min best w) = w := by
          rw [hbw']
          exact min_eq_right hwb'.le
        rw [hma] at i3 i4
        rw [hbw'] at i1 i2 i3 i4
        have hgg' : rest.foldl (fun x a => min x (childVal s a)) (min best c) =
            rest.foldl (fun x a => min x (childVal s a)) w := by
          rw [← hwec, hbw']
        refine ⟨le_trans i1 (le_trans hwb'.le hbb), ?_, ?_, ?_⟩
        · intro hva
          rw [← hg, hgg']
          exact i2 hva
        · intro hbv
          exact absurd (lt_of_le_of_lt (hbv.trans i1) hwb') (lt_irrefl be)
        · intro hav hvb
          rw [← hg, hgg']
          rcases eq_or_lt_of_le i1 with heq | hlt
          · have h1 := i3 heq.ge
            exact le_antisymm h1 (heq.symm.le.trans' (foldl_min_le_init (childVal s) rest w))
          · exact i4 hav hlt

instance (s : State) : RightCommutative (fun (x : Val) (a : Move) => max x (childVal s a)) :=
  ⟨fun b a1 a2 => by simp only [sup_right_comm]⟩

instance (s : State) : RightCommutative (fun (x : Val) (a : Move) => min x (childVal s a)) :=
  ⟨fun b a1 a2 => by simp only [inf_right_comm]⟩

theorem order_moves_perm_actions (s : State) (ord : Bool) :
    (if ord then order_moves s (actions s) true else lexSort (actions s)).Perm (actions s) := by
  split
  · unfold order_moves
    rw [if_pos rfl]
    exact List.perm_insertionSort _ _
  · exact lexSort_perm _

/-- Knuth-Moore style correctness of the source's alpha-beta search against
plain minimax: the returned value is exact when it lands strictly inside the
(alpha, beta) window, an upper bound on the minimax value when it fails low,
and a lower bound when it fails high — for both orderings. -/
theorem ab_master :
    ∀ (n : Nat) (s : State) (al be : Val) (ord : Bool),
      s.m * s.m - s.moves ≤ n → WF s → al < be →
      (((minimax_ab s al be ord).1 ≤ al → (minimax s).1 ≤ (minimax_ab s al be ord).1)
      ∧ (be ≤ (minimax_ab s al be ord).1 → (minimax_ab s al be ord).1 ≤ (minimax s).1)
      ∧ (al < (minimax_ab s al be ord).1 → (minimax_ab s al be ord).1 < be →
          (minimax_ab s al be ord).1 = (minimax s).1)) := by
  intro n
  induction n with
  | zero =>
    intro s al be ord hn hw hab
    have ht : terminal s := Or.inr (by have := moves_le_of_WF hw; omega)
    rw [minimax_ab_of_terminal (moves_le_of_WF hw) ht,
      minimax_of_terminal (moves_le_of_WF hw) ht]
    exact ⟨fun _ => le_refl _, fun _ => le_refl _, fun _ _ => rfl⟩
  | succ n ih =>
    intro s al be ord hn hw hab
    by_cases ht : terminal s
    · rw [minimax_ab_of_terminal (moves_le_of_WF hw) ht,
        minimax_of_terminal (moves_le_of_WF hw) ht]
      exact ⟨fun _ => le_refl _, fun _ => le_refl _, fun _ _ => rfl⟩
    · have hmlt : s.moves < s.m * s.m := by
        have := moves_le_of_WF hw
        rcases lt_or_eq_of_le this with h | h
        · exact h
        · exact absurd (Or.inr h) ht
      have hperm := order_moves_perm_actions s ord
      have hpermlex : (if ord then order_moves s (actions s) true
          else lexSort (actions s)).Perm (lexSort (actions s)) :=
        hperm.trans (lexSort_perm (actions s)).symm
      have hrecX : ∀ a ∈ (if ord then order_moves s (actions s) true
          else lexSort (actions s)), ∀ al' : Val, al' < be →
          (((fun t a' b' => (minimax_ab t a' b' ord).1) (applyU s a) al' be ≤ al' →
            childVal s a ≤ (fun t a' b' => (minimax_ab t a' b' ord).1) (applyU s a) al' be) ∧
           (be ≤ (fun t a' b' => (minimax_ab t a' b' ord).1) (applyU s a) al' be →
            (fun t a' b' => (minimax_ab t a' b' ord).1) (applyU s a) al' be ≤ childVal s a) ∧
           (al' < (fun t a' b' => (minimax_ab t a' b' ord).1) (applyU s a) al' be →
            (fun t a' b' => (minimax_ab t a' b' ord).1) (applyU s a) al' be < be →
            (fun t a' b' => (minimax_ab t a' b' ord).1) (applyU s a) al' be = childVal s a)) := by
        intro a ha al' hab'
        have ha' : a ∈ actions s := hperm.mem_iff.mp ha
        exact ih (applyU s a) al' be ord
          (by simp only [applyU_m, applyU_moves]; omega) (WF_applyU hw ha') hab'
      have hrecO : ∀ a ∈ (if ord then order_moves s (actions s) true
          else lexSort (actions s)), ∀ be' : Val, al < be' →
          (((fun t a' b' => (minimax_ab t a' b' ord).1) (applyU s a) al be' ≤ al →
            childVal s a ≤ (fun t a' b' => (minimax_ab t a' b' ord).1) (applyU s a) al be') ∧
           (be' ≤ (fun t a' b' => (minimax_ab t a' b' ord).1) (applyU s a) al be' →
            (fun t a' b' => (minimax_ab t a' b' ord).1) (applyU s a) al be' ≤ childVal s a) ∧
           (al < (fun t a' b' => (minimax_ab t a' b' ord).1) (applyU s a) al be' →
            (fun t a' b' => (minimax_ab t a' b' ord).1) (applyU s a) al be' < be' →
            (fun t a' b' => (minimax_ab t a' b' ord).1) (applyU s a) al be' = childVal s a)) := by
        intro a ha be' hab'
        have ha' : a ∈ actions s := hperm.mem_iff.mp ha
        exact ih (applyU s a) al be' ord
          (by simp only [applyU_m, applyU_moves]; omega) (WF_applyU hw ha') hab'
      rw [minimax_ab_of_nonterminal hw ht al be ord, minimax_of_nonterminal hw ht]
      simp only
      by_cases hp : player s = Player.X
      · rw [if_pos hp, if_pos hp]
        have hM : (mmLoopX (fun t => (minimax t).1) s (lexSort (actions s)) ⊥ none).1 =
            (if ord then order_moves s (actions s) true
              else lexSort (actions s)).foldl (fun x a => max x (childVal s a)) ⊥ := by
          rw [mmLoopX_fst]
          exact (@List.Perm.foldl_eq _ _ (fun x a => max x (childVal s a)) _ _ _
            hpermlex ⊥).symm
        obtain ⟨_, c2, c3, c4⟩ := abLoopX_m s be
          (fun t a' b' => (minimax_ab t a' b' ord).1)
          (if ord then order_moves s (actions s) true else lexSort (actions s))
          hrecX al ⊥ none _ _ rfl rfl bot_le hab
        rw [hM]
        exact ⟨c2, c3, c4⟩
      · rw [if_neg hp, if_neg hp]
        have hM : (mmLoopO (fun t => (minimax t).1) s (lexSort (actions s)) ⊤ none).1 =
            (if ord then order_moves s (actions s) true
              else lexSort (actions s)).foldl (fun x a => min x (childVal s a)) ⊤ := by
          rw [mmLoopO_fst]
          exact (@List.Perm.foldl_eq _ _ (fun x a => min x (childVal s a)) _ _ _
            hpermlex ⊤).symm
        obtain ⟨_, c2, c3, c4⟩ := abLoopO_m s al
          (fun t a' b' => (minimax_ab t a' b' ord).1)
          (if ord then order_moves s (actions s) true else lexSort (actions s))
          hrecO be ⊤ none _ _ rfl rfl le_top hab
        rw [hM]
        exact ⟨c2, c3, c4⟩

theorem mmLoopX_top_const (s : State) :
    ∀ (ms : List Move) (bm : Option Move),
      mmLoopX (fun t => (minimax t).1) s ms ⊤ bm = (⊤, bm) := by
  intro ms
  induction ms with
  | nil => intro bm; rfl
  | cons a rest ih =>
    intro bm
    simp only [mmLoopX]
    rw [if_neg (not_top_lt)]
    exact ih bm

theorem mmLoopO_bot_const (s : State) :
    ∀ (ms : List Move) (bm : Option Move),
      mmLoopO (fun t => (minimax t).1) s ms ⊥ bm = (⊥, bm) := by
  intro ms
  induction ms with
  | nil => intro bm; rfl
  | cons a rest ih =>
    intro bm
    simp only [mmLoopO]
    rw [if_neg (not_lt_bot)]
    exact ih bm

/-- With the full window, the maximizing alpha-beta loop computes exactly
what the plain minimax loop computes (same value and same move), given the
master bounds for the children.  The running alpha always equals the running
best here, so the invariant is the single `best` parameter. -/
theorem abLoopX_top (s : State) (recur : State → Val → Val → Val) :
    ∀ ms : List Move,
      (∀ a ∈ ms, ∀ al' : Val, al' < ⊤ →
        ((recur (applyU s a) al' ⊤ ≤ al' → childVal s a ≤ recur (applyU s a) al' ⊤) ∧
         (⊤ ≤ recur (applyU s a) al' ⊤ → recur (applyU s a) al' ⊤ ≤ childVal s a) ∧
         (al' < recur (applyU s a) al' ⊤ → recur (applyU s a) al' ⊤ < ⊤ →
           recur (applyU s a) al' ⊤ = childVal s a))) →
      ∀ (best : Val) (bm : Option Move),
        abLoopX recur s ms best ⊤ best bm = mmLoopX (fun t => (minimax t).1) s ms best bm := by
  intro ms
  induction ms with
  | nil => intro _ best bm; rfl
  | cons a rest ih =>
    intro hrec best bm
    have hrec' := fun b hb => hrec b (List.mem_cons_of_mem _ hb)
    rw [abLoopX_cons_eq]
    simp only [mmLoopX]
    rw [show (minimax (applyU s a)).1 = childVal s a from rfl]
    set w := recur (applyU s a) best ⊤ with hw
    have hmm : max best (max best w) = max best w := by
      rw [← max_assoc, max_self]
    by_cases hbt : best = ⊤
    · subst hbt
      rw [if_pos (le_max_left ⊤ _), if_neg (not_top_lt), max_eq_left le_top,
        if_neg (show ¬ (⊤ : Val) < childVal s a from not_top_lt)]
      exact (mmLoopX_top_const s rest bm).symm
    · have hblt : best < ⊤ := lt_top_iff_ne_top.mpr hbt
      have H := hrec a (List.mem_cons_self a rest) best hblt
      rw [← hw] at H
      by_cases hup : best < w
      · have hwc : w = childVal s a := by
          by_cases hwt : w = ⊤
          · have h1 : w ≤ childVal s a := H.2.1 (by rw [hwt])
            have h2 : childVal s a = ⊤ := top_le_iff.mp (by rw [← hwt]; exact h1)
            rw [h2, hwt]
          · exact H.2.2 hup (lt_top_iff_ne_top.mpr hwt)
        have hbw : max best w = w := max_eq_right hup.le
        rw [hmm, hbw, if_pos (show best < childVal s a from hwc ▸ hup),
          if_pos (show best < w from hup)]
        by_cases hwt : (⊤ : Val) ≤ w
        · have hwt' : w = ⊤ := top_le_iff.mp hwt
          rw [if_pos hwt, ← hwc, hwt', mmLoopX_top_const s rest (some a)]
        · rw [if_neg hwt, ← hwc]
          exact ih hrec' w (some a)
      · have hwb : w ≤ best := not_lt.mp hup
        have hcw : childVal s a ≤ w := H.1 hwb
        have hbw : max best w = best := max_eq_left hwb
        rw [hmm, hbw, if_neg (not_le.mpr hblt),
          if_neg (show ¬ best < childVal s a from not_lt.mpr (hcw.trans hwb)),
          if_neg (show ¬ best < w from hup)]
        exact ih hrec' best bm

/-- Mirror of `abLoopX_top` for the minimizing loop with the full window. -/
theorem abLoopO_top (s : State) (recur : State → Val → Val → Val) :
    ∀ ms : List Move,
      (∀ a ∈ ms, ∀ be' : Val, ⊥ < be' →
        ((recur (applyU s a) ⊥ be' ≤ ⊥ → childVal s a ≤ recur (applyU s a) ⊥ be') ∧
         (be' ≤ recur (applyU s a) ⊥ be' → recur (applyU s a) ⊥ be' ≤ childVal s a) ∧
         (⊥ < recur (applyU s a) ⊥ be' → recur (applyU s a) ⊥ be' < be' →
           recur (applyU s a) ⊥ be' = childVal s a))) →
      ∀ (best : Val) (bm : Option Move),
        abLoopO recur s ms ⊥ best best bm = mmLoopO (fun t => (minimax t).1) s ms best bm := by
  intro ms
  induction ms with
  | nil => intro _ best bm; rfl
  | cons a rest ih =>
    intro hrec best bm
    have hrec' := fun b hb => hrec b (List.mem_cons_of_mem _ hb)
    rw [abLoopO_cons_eq]
    simp only [mmLoopO]
    rw [show (minimax (applyU s a)).1 = childVal s a from rfl]
    set w := recur (applyU s a) ⊥ best with hw
    have hmm : min best (min best w) = min best w := by
      rw [← min_assoc, min_self]
    by_cases hbt : best = ⊥
    · subst hbt
      rw [if_pos (min_le_left ⊥ _), if_neg (not_lt_bot), min_eq_left bot_le,
        if_neg (show ¬ childVal s a < (⊥ : Val) from not_lt_bot)]
      exact (mmLoopO_bot_const s rest bm).symm
    · have hblt : (⊥ : Val) < best := bot_lt_iff_ne_bot.mpr hbt
      have H := hrec a (List.mem_cons_self a rest) best hblt
      rw [← hw] at H
      by_cases hup : w < best
      · have hwc : w = childVal s a := by
          by_cases hwt : w = ⊥
          · have h1 : childVal s a ≤ w := H.1 (by rw [hwt])
            have h2 : childVal s a = ⊥ := le_bot_iff.mp (by rw [← hwt]; exact h1)
            rw [h2, hwt]
          · exact H.2.2 (bot_lt_iff_ne_bot.mpr hwt) hup
        have hbw : min best w = w := min_eq_right hup.le
        rw [hmm, hbw, if_pos (show childVal s a < best from hwc ▸ hup),
          if_pos (show w < best from hup)]
        by_cases hwt : w ≤ (⊥ : Val)
        · have hwt' : w = ⊥ := le_bot_iff.mp hwt
          rw [if_pos hwt, ← hwc, hwt', mmLoopO_bot_const s rest (some a)]
        · rw [if_neg hwt, ← hwc]
          exact ih hrec' w (some a)
      · have hwb : best ≤ w := not_lt.mp hup
        have hcw : w ≤ childVal s a := H.2.1 hwb
        have hbw : min best w = best := min_eq_left hwb
        rw [hmm, hbw, if_neg (not_le.mpr hblt),
          if_neg (show ¬ childVal s a < best from not_lt.mpr (hwb.trans hcw)),
          if_neg (show ¬ w < best from hup)]
        exact ih hrec' best bm

/-! ### C1: alpha-beta minimax is equivalent to plain minimax -/

/-- C1: at the source's entry window (alpha = -inf, beta = inf) and on any
well-formed state, alpha-beta minimax returns the same value as plain
minimax for both orderings, and without heuristic ordering (both sides
explore children in lexicographic order) it returns the identical
(value, move) pair — heuristic ordering can only change the move, never the
value. -/
theorem minimax_ab_equiv (s : State) (hw : WF s) :
    minimax_ab s ⊥ ⊤ false = minimax s ∧
    ∀ ord : Bool, (minimax_ab s ⊥ ⊤ ord).1 = (minimax s).1 := by
  have hval : ∀ ord : Bool, (minimax_ab s ⊥ ⊤ ord).1 = (minimax s).1 := by
    intro ord
    obtain ⟨c1, c2, c3⟩ := ab_master (s.m * s.m - s.moves) s ⊥ ⊤ ord (le_refl _) hw bot_lt_top
    rcases le_or_lt (minimax_ab s ⊥ ⊤ ord).1 ⊥ with h | h
    · have hv := le_bot_iff.mp h
      have h2 := c1 h
      rw [hv] at h2 ⊢
      exact (le_bot_iff.mp h2).symm
    · rcases lt_or_ge (minimax_ab s ⊥ ⊤ ord).1 ⊤ with h2 | h2
      · exact c3 h h2
      · have hv := top_le_iff.mp h2
        have h3 := c2 h2
        rw [hv] at h3 ⊢
        exact (top_le_iff.mp h3).symm
  refine ⟨?_, hval⟩
  by_cases ht : terminal s
  · rw [minimax_ab_of_terminal (moves_le_of_WF hw) ht,
      minimax_of_terminal (moves_le_of_WF hw) ht]
  · have hmlt : s.moves < s.m * s.m := by
      have := moves_le_of_WF hw
      rcases lt_or_eq_of_le this with h | h
      · exact h
      · exact absurd (Or.inr h) ht
    rw [minimax_ab_of_nonterminal hw ht ⊥ ⊤ false, minimax_of_nonterminal hw ht]
    simp only [Bool.false_eq_true, if_false]
    have hchild : ∀ a ∈ lexSort (actions s), ∀ al' (be' : Val), al' < be' →
        (((minimax_ab (applyU s a) al' be' false).1 ≤ al' →
          childVal s a ≤ (minimax_ab (applyU s a) al' be' false).1) ∧
         (be' ≤ (minimax_ab (applyU s a) al' be' false).1 →
          (minimax_ab (applyU s a) al' be' false).1 ≤ childVal s a) ∧
         (al' < (minimax_ab (applyU s a) al' be' false).1 →
          (minimax_ab (applyU s a) al' be' false).1 < be' →
          (minimax_ab (applyU s a) al' be' false).1 = childVal s a)) := by
      intro a ha al' be' hab'
      have ha' : a ∈ actions s := (lexSort_perm (actions s)).mem_iff.mp ha
      exact ab_master (s.m * s.m - (s.moves + 1)) (applyU s a) al' be' false
        (by simp only [applyU_m, applyU_moves]; omega) (WF_applyU hw ha') hab'
    split
    · exact abLoopX_top s (fun t a' b' => (minimax_ab t a' b' false).1)
        (lexSort (actions s))
        (fun a ha al' hal => hchild a ha al' ⊤ hal) ⊥ none
    · exact abLoopO_top s (fun t a' b' => (minimax_ab t a' b' false).1)
        (lexSort (actions s))
        (fun a ha be' hbe => hchild a ha ⊥ be' hbe) ⊤ none

theorem minimax_ab_equiv_witness :
    WF (initial_state 2 2) ∧
    minimax_ab (initial_state 2 2) ⊥ ⊤ false = minimax (initial_state 2 2) ∧
    (minimax_ab (initial_state 2 2) ⊥ ⊤ true).1 = (minimax (initial_state 2 2)).1 := by
  refine ⟨by decide, ?_, ?_⟩
  · exact (minimax_ab_equiv (initial_state 2 2) (by decide)).1
  · exact (minimax_ab_equiv (initial_state 2 2) (by decide)).2 true

/-! ### C6: plain minimax returns the first optimal move in lexicographic order -/

/-- C6: on a non-terminal well-formed state, plain minimax returns a legal
move achieving the optimal recursive value (maximal for X, minimal for O);
every legal move's recursive value is bounded by the returned value, and
every lexicographically smaller legal move is strictly worse — i.e. the
returned move is the lexicographically smallest legal move whose recursive
minimax value equals the optimum (first move wins ties under the strict
comparison). -/
theorem minimax_first_argmax (s : State) (hw : WF s) (ht : ¬ terminal s) :
    ∃ a : Move, (minimax s).2 = some a ∧ a ∈ actions s ∧
      childVal s a = (minimax s).1 ∧
      (∀ b ∈ actions s,
        if player s = Player.X then childVal s b ≤ (minimax s).1
        else (minimax s).1 ≤ childVal s b) ∧
      (∀ b ∈ actions s, (toLex b : Nat ×ₗ Nat) < toLex a →
        (if player s = Player.X then childVal s b < (minimax s).1
         else (minimax s).1 < childVal s b)) := by
  have hmlt : s.moves < s.m * s.m := by
    have := moves_le_of_WF hw
    rcases lt_or_eq_of_le this with h | h
    · exact h
    · exact absurd (Or.inr h) ht
  have hch : ∀ a ∈ lexSort (actions s), childVal s a ≠ ⊥ ∧ childVal s a ≠ ⊤ := by
    intro a ha
    have ha' : a ∈ actions s := (lexSort_perm (actions s)).mem_iff.mp ha
    exact minimax_fst_ne (s.m * s.m - (s.moves + 1)) (applyU s a)
      (by simp only [applyU_m, applyU_moves]; omega) (WF_applyU hw ha')
  have hne : lexSort (actions s) ≠ [] := by
    intro h
    have hp := lexSort_perm (actions s)
    rw [h] at hp
    exact actions_ne_nil hw ht hp.symm.eq_nil
  rcases List.exists_mem_of_ne_nil _ hne with ⟨a0, ha0⟩
  have hsorted := lexSort_sorted (actions s)
  have hmemiff : ∀ b : Move, b ∈ actions s ↔ b ∈ lexSort (actions s) :=
    fun b => ((lexSort_perm (actions s)).mem_iff).symm
  rw [minimax_of_nonterminal hw ht]
  split
  · -- maximizing player
    have hnot : ¬ (∀ a ∈ lexSort (actions s), childVal s a ≤ ⊥) := by
      intro hall
      exact (hch a0 ha0).1 (le_bot_iff.mp (hall a0 ha0))
    rcases (mmLoopX_spec s (lexSort (actions s)) ⊥ none).2 hnot with
      ⟨pre, a, post, hms, h2, h1, _, hpre, hpost⟩
    have hamem : a ∈ actions s := by
      rw [hmemiff a, hms]
      exact List.mem_append_right pre (List.mem_cons_self a post)
    refine ⟨a, h2, hamem, h1.symm, ?_, ?_⟩
    · intro b hb
      have hb' := (hmemiff b).mp hb
      rw [hms] at hb'
      rw [h1]
      rcases List.mem_append.mp hb' with h | h
      · exact (hpre b h).le
      · rcases List.mem_cons.mp h with h | h
        · subst h; exact le_refl _
        · exact hpost b h
    · intro b hb hblt
      have hb' := (hmemiff b).mp hb
      rw [hms] at hb'
      rw [h1]
      rcases List.mem_append.mp hb' with h | h
      · exact hpre b h
      · rcases List.mem_cons.mp h with h | h
        · subst h; exact absurd hblt (lt_irrefl _)
        · -- b after a in the sorted list: a ≤ b, contradicting b < a
          rw [hms] at hsorted
          have := (List.pairwise_append.mp hsorted).2
          have hcons := List.pairwise_cons.mp this.1
          exact absurd hblt (not_lt.mpr (hcons.1 b h))
  · -- minimizing player
    have hnot : ¬ (∀ a ∈ lexSort (actions s), ⊤ ≤ childVal s a) := by
      intro hall
      exact (hch a0 ha0).2 (top_le_iff.mp (hall a0 ha0))
    rcases (mmLoopO_spec s (lexSort (actions s)) ⊤ none).2 hnot with
      ⟨pre, a, post, hms, h2, h1, _, hpre, hpost⟩
    have hamem : a ∈ actions s := by
      rw [hmemiff a, hms]
      exact List.mem_append_right pre (List.mem_cons_self a post)
    refine ⟨a, h2, hamem, h1.symm, ?_, ?_⟩
    · intro b hb
      have hb' := (hmemiff b).mp hb
      rw [hms] at hb'
      rw [h1]
      rcases List.mem_append.mp hb' with h | h
      · exact (hpre b h).le
      · rcases List.mem_cons.mp h with h | h
        · subst h; exact le_refl _
        · exact hpost b h
    · intro b hb hblt
      have hb' := (hmemiff b).mp hb
      rw [hms] at hb'
      rw [h1]
      rcases List.mem_append.mp hb' with h | h
      · exact hpre b h
      · rcases List.mem_cons.mp h with h | h
        · subst h; exact absurd hblt (lt_irrefl _)
        · rw [hms] at hsorted
          have := (List.pairwise_append.mp hsorted).2
          have hcons := List.pairwise_cons.mp this.1
          exact absurd hblt (not_lt.mpr (hcons.1 b h))

theorem minimax_first_argmax_witness :
    WF (initial_state 2 2) ∧ ¬ terminal (initial_state 2 2) ∧
    ∃ a : Move, (minimax (initial_state 2 2)).2 = some a ∧
      a ∈ actions (initial_state 2 2) ∧
      childVal (initial_state 2 2) a = (minimax (initial_state 2 2)).1 := by
  refine ⟨by decide, by decide, ?_⟩
  rcases minimax_first_argmax (initial_state 2 2) (by decide) (by decide) with
    ⟨a, h1, h2, h3, _, _⟩
  exact ⟨a, h1, h2, h3⟩

/-! ### C10 and C2: the move orderer -/

/-- C10: in both modes, `order_moves` returns a permutation of its input.
The legality hypothesis restricts the statement to the source's domain:
with the heuristic enabled Python applies every listed move, which raises
on an occupied cell. -/
theorem order_moves_perm (s : State) (ms : List Move) (b : Bool)
    (hleg : ∀ a ∈ ms, a ∈ actions s) :
    (order_moves s ms b).Perm ms := by
  unfold order_moves lexSort
  split
  · exact List.perm_insertionSort _ _
  · exact List.perm_insertionSort _ _

theorem order_moves_perm_witness :
    (∀ a ∈ [((0 : Nat), (1 : Nat)), ((0 : Nat), (0 : Nat))],
        a ∈ actions (initial_state 2 2))
    ∧ (order_moves (initial_state 2 2) [(0, 1), (0, 0)] true).Perm [(0, 1), (0, 0)] := by
  refine ⟨by decide, order_moves_perm _ _ true (by decide)⟩

/-- The sort key C2 attributes to `orderMoves` with the heuristic: tier 0
for an immediate win, tie-broken by (row, col); tier 1 for the rest, ranked
by negated mover-perspective evaluation, then Manhattan distance to the
center, then row, then column. -/
def claimPrio (s : State) (a : Move) : Nat ×ₗ (ℚ ×ₗ (Nat ×ₗ (Nat ×ₗ Nat))) :=
  let ns := applyU s a
  if winner ns = some (player s) then
    toLex (0, toLex ((0 : ℚ), toLex (0, toLex (a.1, a.2))))
  else
    let evalScore : ℚ :=
      if player s = Player.O then -(evaluate ns) else evaluate ns
    let dist : Nat := Nat.dist a.1 (s.m / 2) + Nat.dist a.2 (s.m / 2)
    toLex (1, toLex (-evalScore, toLex (dist, toLex (a.1, a.2))))

/-- C2 counterexample: on the empty 3×3 board the legal moves (0,2) and
(0,0) have equal code keys (tier 1, equal evaluation 3, equal center
distance 2, equal row 0), so the stable sort keeps the input order
[(0,2),(0,0)] — but the claimed key orders (0,0) strictly before (0,2) by
the final column tie-break, so the output is not ascending under the
claimed key. -/
theorem order_moves_claim_cex :
    (∀ a ∈ [((0 : Nat), (2 : Nat)), ((0 : Nat), (0 : Nat))],
        a ∈ actions (initial_state 3 3))
    ∧ order_moves (initial_state 3 3) [(0, 2), (0, 0)] true = [(0, 2), (0, 0)]
    ∧ ¬ (order_moves (initial_state 3 3) [(0, 2), (0, 0)] true).Pairwise
        (fun a b => claimPrio (initial_state 3 3) a ≤ claimPrio (initial_state 3 3) b) := by
  refine ⟨by decide, by with_unfolding_all decide, ?_⟩
  intro h
  have h02 : claimPrio (initial_state 3 3) (0, 2) ≤ claimPrio (initial_state 3 3) (0, 0) →
      False := by with_unfolding_all decide
  have heq : order_moves (initial_state 3 3) [(0, 2), (0, 0)] true = [(0, 2), (0, 0)] := by
    with_unfolding_all decide
  rw [heq] at h
  exact h02 ((List.pairwise_cons.mp h).1 (0, 0) (List.mem_singleton.mpr rfl))

/-- C2 amended: with the heuristic, `order_moves` stable-sorts the moves
ascending by the source's key — `(0, 0, row, col)` for an immediate win
(so tier-0 ties do break by (row, col) as claimed) and
`(1, negated mover-perspective evaluation, center distance, row)` otherwise:
the claimed final column tie-break does not exist in tier 1; moves with
entirely equal keys keep their input order instead (stability). -/
theorem order_moves_heuristic_spec (s : State) (ms : List Move) :
    (order_moves s ms true).Perm ms
  ∧ (order_moves s ms true).Pairwise
      (fun a b => move_priority s a ≤ move_priority s b)
  ∧ (∀ a b, move_priority s a ≤ move_priority s b → [a, b].Sublist ms →
      [a, b].Sublist (order_moves s ms true)) := by
  refine ⟨List.perm_insertionSort _ _, ?_, ?_⟩
  · exact List.sorted_insertionSort (prioLE s) ms
  · intro a b hab hsub
    exact List.pair_sublist_insertionSort hab hsub

/-! ### C3: presence of the returned best move -/

theorem abLoopX_isSome_of (recur : State → Val → Val → Val) (s : State) :
    ∀ (ms : List Move) (al be best : Val) (bm : Option Move), bm.isSome →
      ((abLoopX recur s ms al be best bm).2).isSome := by
  intro ms
  induction ms with
  | nil => intro al be best bm h; exact h
  | cons a rest ih =>
    intro al be best bm h
    rw [abLoopX_cons_eq]
    have hsome : (if best < recur (applyU s a) al be then some a else bm).isSome := by
      split
      · rfl
      · exact h
    split
    · exact hsome
    · exact ih _ _ _ _ hsome

theorem abLoopO_isSome_of (recur : State → Val → Val → Val) (s : State) :
    ∀ (ms : List Move) (al be best : Val) (bm : Option Move), bm.isSome →
      ((abLoopO recur s ms al be best bm).2).isSome := by
  intro ms
  induction ms with
  | nil => intro al be best bm h; exact h
  | cons a rest ih =>
    intro al be best bm h
    rw [abLoopO_cons_eq]
    have hsome : (if recur (applyU s a) al be < best then some a else bm).isSome := by
      split
      · rfl
      · exact h
    split
    · exact hsome
    · exact ih _ _ _ _ hsome

theorem abLoopX_head_some (recur : State → Val → Val → Val) (s : State)
    (a : Move) (rest : List Move) (al be best : Val) (bm : Option Move)
    (h : best < recur (applyU s a) al be) :
    ((abLoopX recur s (a :: rest) al be best bm).2).isSome := by
  rw [abLoopX_cons_eq, if_pos h]
  split
  · rfl
  · exact abLoopX_isSome_of recur s rest _ _ _ _ rfl

theorem abLoopO_head_some (recur : State → Val → Val → Val) (s : State)
    (a : Move) (rest : List Move) (al be best : Val) (bm : Option Move)
    (h : recur (applyU s a) al be < best) :
    ((abLoopO recur s (a :: rest) al be best bm).2).isSome := by
  rw [abLoopO_cons_eq, if_pos h]
  split
  · rfl
  · exact abLoopO_isSome_of recur s rest _ _ _ _ rfl

theorem abLoopX_fst_mem (recur : State → Val → Val → Val) (s : State) :
    ∀ (ms : List Move) (al be best : Val) (bm : Option Move),
      (abLoopX recur s ms al be best bm).1 = best ∨
      ∃ a ∈ ms, ∃ al' be', (abLoopX recur s ms al be best bm).1 =
        recur (applyU s a) al' be' := by
  intro ms
  induction ms with
  | nil => intro al be best bm; exact Or.inl rfl
  | cons a rest ih =>
    intro al be best bm
    rw [abLoopX_cons_eq]
    split
    · rcases max_choice best (recur (applyU s a) al be) with h | h
      · exact Or.inl h
      · exact Or.inr ⟨a, List.mem_cons_self a rest, al, be, h⟩
    · rcases ih (max al (max best (recur (applyU s a) al be))) be
        (max best (recur (applyU s a) al be))
        (if best < recur (applyU s a) al be then some a else bm) with h | ⟨b, hb, al', be', h⟩
      · rcases max_choice best (recur (applyU s a) al be) with h2 | h2
        · exact Or.inl (h.trans h2)
        · exact Or.inr ⟨a, List.mem_cons_self a rest, al, be, h.trans h2⟩
      · exact Or.inr ⟨b, List.mem_cons_of_mem _ hb, al', be', h⟩

theorem abLoopO_fst_mem (recur : State → Val → Val → Val) (s : State) :
    ∀ (ms : List Move) (al be best : Val) (bm : Option Move),
      (abLoopO recur s ms al be best bm).1 = best ∨
      ∃ a ∈ ms, ∃ al' be', (abLoopO recur s ms al be best bm).1 =
        recur (applyU s a) al' be' := by
  intro ms
  induction ms with
  | nil => intro al be best bm; exact Or.inl rfl
  | cons a rest ih =>
    intro al be best bm
    rw [abLoopO_cons_eq]
    split
    · rcases min_choice best (recur (applyU s a) al be) with h | h
      · exact Or.inl h
      · exact Or.inr ⟨a, List.mem_cons_self a rest, al, be, h⟩
    · rcases ih al (min be (min best (recur (applyU s a) al be)))
        (min best (recur (applyU s a) al be))
        (if recur (applyU s a) al be < best then some a else bm) with h | ⟨b, hb, al', be', h⟩
      · rcases min_choice best (recur (applyU s a) al be) with h2 | h2
        · exact Or.inl (h.trans h2)
        · exact Or.inr ⟨a, List.mem_cons_self a rest, al, be, h.trans h2⟩
      · exact Or.inr ⟨b, List.mem_cons_of_mem _ hb, al', be', h⟩

theorem abLoopX_fst_ge (recur : State → Val → Val → Val) (s : State) :
    ∀ (ms : List Move) (al be best : Val) (bm : Option Move),
      best ≤ (abLoopX recur s ms al be best bm).1 := by
  intro ms
  induction ms with
  | nil => intro al be best bm; exact le_refl best
  | cons a rest ih =>
    intro al be best bm
    rw [abLoopX_cons_eq]
    split
    · exact le_max_left _ _
    · exact le_trans (le_max_left _ _) (ih _ _ _ _)

theorem abLoopO_fst_le (recur : State → Val → Val → Val) (s : State) :
    ∀ (ms : List Move) (al be best : Val) (bm : Option Move),
      (abLoopO recur s ms al be best bm).1 ≤ best := by
  intro ms
  induction ms with
  | nil => intro al be best bm; exact le_refl best
  | cons a rest ih =>
    intro al be best bm
    rw [abLoopO_cons_eq]
    split
    · exact min_le_left _ _
    · exact le_trans (ih _ _ _ _) (min_le_left _ _)

theorem order_moves_actions_perm (s : State) :
    (order_moves s (actions s) true).Perm (actions s) := by
  unfold order_moves
  rw [if_pos rfl]
  exact List.perm_insertionSort _ _

/-- On well-formed states the depth-limited search value is finite, for any
evaluator and any window. -/
theorem searchF_fst_ne (ev : State → ℚ) :
    ∀ (d : Nat) (s : State) (al be : Val), WF s →
      (searchF d s ev al be).1 ≠ ⊥ ∧ (searchF d s ev al be).1 ≠ ⊤ := by
  intro d
  induction d with
  | zero =>
    intro s al be hw
    by_cases ht : terminal s
    · unfold searchF
      rw [if_pos ht]
      split
      · exact ⟨qv_ne_bot _, qv_ne_top _⟩
      · split
        · exact ⟨qv_ne_bot _, qv_ne_top _⟩
        · exact ⟨qv_ne_bot _, qv_ne_top _⟩
    · unfold searchF
      rw [if_neg ht]
      exact ⟨qv_ne_bot _, qv_ne_top _⟩
  | succ d ih =>
    intro s al be hw
    by_cases ht : terminal s
    · unfold searchF
      rw [if_pos ht]
      split
      · exact ⟨qv_ne_bot _, qv_ne_top _⟩
      · split
        · exact ⟨qv_ne_bot _, qv_ne_top _⟩
        · exact ⟨qv_ne_bot _, qv_ne_top _⟩
    · have hne : order_moves s (actions s) true ≠ [] := by
        intro h
        have hp := order_moves_actions_perm s
        rw [h] at hp
        exact actions_ne_nil hw ht hp.symm.eq_nil
      rcases List.exists_cons_of_ne_nil hne with ⟨a, rest, hms⟩
      have hmem : ∀ b ∈ order_moves s (actions s) true, b ∈ actions s :=
        fun b hb => (order_moves_actions_perm s).mem_iff.mp hb
      have hchild : ∀ b ∈ order_moves s (actions s) true, ∀ al' be' : Val,
          (searchF d (applyU s b) ev al' be').1 ≠ ⊥ ∧
          (searchF d (applyU s b) ev al' be').1 ≠ ⊤ :=
        fun b hb al' be' => ih (applyU s b) al' be' (WF_applyU hw (hmem b hb))
      unfold searchF
      rw [if_neg ht]
      simp only
      split
      · -- maximizing
        constructor
        · intro hbot
          have hha : a ∈ order_moves s (actions s) true := by
            rw [hms]; exact List.mem_cons_self a rest
          have h1 : (searchF d (applyU s a) ev al be).1 ≤
              (abLoopX (fun t a' b' => (searchF d t ev a' b').1) s
                (order_moves s (actions s) true) al be ⊥ none).1 := by
            rw [hms, abLoopX_cons_eq]
            split
            · exact le_max_right ⊥ _
            · exact le_trans (le_max_right ⊥ _) (abLoopX_fst_ge _ s rest _ _ _ _)
          rw [hbot] at h1
          exact (hchild a hha al be).1 (le_bot_iff.mp h1)
        · rcases abLoopX_fst_mem (fun t a' b' => (searchF d t ev a' b').1) s
            (order_moves s (actions s) true) al be ⊥ none with h | ⟨b, hb, al', be', h⟩
          · rw [h]; exact bot_ne_top
          · rw [h]; exact (hchild b hb al' be').2
      · -- minimizing
        constructor
        · rcases abLoopO_fst_mem (fun t a' b' => (searchF d t ev a' b').1) s
            (order_moves s (actions s) true) al be ⊤ none with h | ⟨b, hb, al', be', h⟩
          · rw [h]; exact top_ne_bot
          · rw [h]; exact (hchild b hb al' be').1
        · intro htop
          have hha : a ∈ order_moves s (actions s) true := by
            rw [hms]; exact List.mem_cons_self a rest
          have h1 : (abLoopO (fun t a' b' => (searchF d t ev a' b').1) s
                (order_moves s (actions s) true) al be ⊤ none).1 ≤
              (searchF d (applyU s a) ev al be).1 := by
            rw [hms, abLoopO_cons_eq]
            split
            · exact min_le_right ⊤ _
            · exact le_trans (abLoopO_fst_le _ s rest _ _ _ _) (min_le_right ⊤ _)
          rw [htop] at h1
          exact (hchild a hha al be).2 (top_le_iff.mp h1)

/-- At the entry window the alpha-beta value is finite on well-formed
states (it is bounded by the finite minimax value via the master bounds). -/
theorem minimax_ab_fst_ne {s : State} (hw : WF s) (ord : Bool) :
    (minimax_ab s ⊥ ⊤ ord).1 ≠ ⊥ ∧ (minimax_ab s ⊥ ⊤ ord).1 ≠ ⊤ := by
  obtain ⟨c1, c2, _⟩ := ab_master (s.m * s.m - s.moves) s ⊥ ⊤ ord (le_refl _) hw bot_lt_top
  obtain ⟨m1, m2⟩ := minimax_fst_ne (s.m * s.m - s.moves) s (le_refl _) hw
  constructor
  · intro h
    exact m1 (le_bot_iff.mp (h ▸ c1 (le_of_eq h)))
  · intro h
    exact m2 (top_le_iff.mp (h ▸ c2 (ge_of_eq h)))

/-- On non-terminal well-formed states plain minimax returns a move. -/
theorem minimax_snd_isSome {s : State} (hw : WF s) (ht : ¬ terminal s) :
    ((minimax s).2).isSome := by
  have hch : ∀ a ∈ lexSort (actions s), childVal s a ≠ ⊥ ∧ childVal s a ≠ ⊤ := by
    intro a ha
    have ha' : a ∈ actions s := (lexSort_perm (actions s)).mem_iff.mp ha
    exact minimax_fst_ne (s.m * s.m - (s.moves + 1)) (applyU s a)
      (by simp only [applyU_m, applyU_moves]; omega) (WF_applyU hw ha')
  have hne : lexSort (actions s) ≠ [] := by
    intro h
    have hp := lexSort_perm (actions s)
    rw [h] at hp
    exact actions_ne_nil hw ht hp.symm.eq_nil
  rcases List.exists_mem_of_ne_nil _ hne with ⟨a0, ha0⟩
  rw [minimax_of_nonterminal hw ht]
  split
  · have hnot : ¬ (∀ a ∈ lexSort (actions s), childVal s a ≤ ⊥) := by
      intro hall
      exact (hch a0 ha0).1 (le_bot_iff.mp (hall a0 ha0))
    rcases (mmLoopX_spec s (lexSort (actions s)) ⊥ none).2 hnot with
      ⟨_, a, _, _, h2, _⟩
    rw [h2]
    rfl
  · have hnot : ¬ (∀ a ∈ lexSort (actions s), ⊤ ≤ childVal s a) := by
      intro hall
      exact (hch a0 ha0).2 (top_le_iff.mp (hall a0 ha0))
    rcases (mmLoopO_spec s (lexSort (actions s)) ⊤ none).2 hnot with
      ⟨_, a, _, _, h2, _⟩
    rw [h2]
    rfl

/-- C3 amended: plain minimax and alpha-beta minimax (at the entry window)
return a move exactly on non-terminal well-formed states; depth-limited
search returns no move on terminal states at every depth, returns no move on
non-terminal states when the depth budget is zero (contrary to the claim as
stated), and does return a move on non-terminal states at positive depth. -/
theorem best_move_presence (s : State) (hw : WF s) :
    ((minimax s).2 = none ↔ terminal s)
  ∧ (∀ ord : Bool, (minimax_ab s ⊥ ⊤ ord).2 = none ↔ terminal s)
  ∧ (∀ (d : Nat) (ev : State → ℚ), terminal s → (searchF d s ev ⊥ ⊤).2 = none)
  ∧ (∀ ev : State → ℚ, ¬ terminal s → (searchF 0 s ev ⊥ ⊤).2 = none)
  ∧ (∀ (d : Nat) (ev : State → ℚ), ¬ terminal s → (searchF (d + 1) s ev ⊥ ⊤).2 ≠ none) := by
  refine ⟨?_, ?_, ?_, ?_, ?_⟩
  · constructor
    · intro h
      by_contra ht
      have := minimax_snd_isSome hw ht
      rw [h] at this
      cases this
    · intro ht
      rw [minimax_of_terminal (moves_le_of_WF hw) ht]
  · intro ord
    constructor
    · intro h
      by_contra ht
      have hperm := order_moves_perm_actions s ord
      have hne : (if ord then order_moves s (actions s) true
          else lexSort (actions s)) ≠ [] := by
        intro h0
        rw [h0] at hperm
        exact actions_ne_nil hw ht hperm.symm.eq_nil
      rcases List.exists_cons_of_ne_nil hne with ⟨a, rest, hms⟩
      have ha : a ∈ actions s := hperm.mem_iff.mp (by rw [hms]; exact List.mem_cons_self a rest)
      have hwchild := WF_applyU hw ha
      have hchild := minimax_ab_fst_ne hwchild ord
      have hsome : ((minimax_ab s ⊥ ⊤ ord).2).isSome := by
        rw [minimax_ab_of_nonterminal hw ht ⊥ ⊤ ord]
        simp only
        rw [hms]
        split
        · exact abLoopX_head_some _ s a rest ⊥ ⊤ ⊥ none
            (bot_lt_iff_ne_bot.mpr hchild.1)
        · exact abLoopO_head_some _ s a rest ⊥ ⊤ ⊤ none
            (lt_top_iff_ne_top.mpr hchild.2)
      rw [h] at hsome
      cases hsome
    · intro ht
      rw [minimax_ab_of_terminal (moves_le_of_WF hw) ht]
  · intro d ev ht
    unfold searchF
    rw [if_pos ht]
  · intro ev ht
    unfold searchF
    rw [if_neg ht]
  · intro d ev ht
    have hne : order_moves s (actions s) true ≠ [] := by
      intro h0
      have hp := order_moves_actions_perm s
      rw [h0] at hp
      exact actions_ne_nil hw ht hp.symm.eq_nil
    rcases List.exists_cons_of_ne_nil hne with ⟨a, rest, hms⟩
    have ha : a ∈ actions s :=
      (order_moves_actions_perm s).mem_iff.mp (by rw [hms]; exact List.mem_cons_self a rest)
    have hchild := searchF_fst_ne ev d (applyU s a) ⊥ ⊤ (WF_applyU hw ha)
    have hsome : ((searchF (d + 1) s ev ⊥ ⊤).2).isSome := by
      unfold searchF
      rw [if_neg ht]
      simp only
      rw [hms]
      split
      · exact abLoopX_head_some _ s a rest ⊥ ⊤ ⊥ none (bot_lt_iff_ne_bot.mpr hchild.1)
      · exact abLoopO_head_some _ s a rest ⊥ ⊤ ⊤ none (lt_top_iff_ne_top.mpr hchild.2)
    intro h
    rw [h] at hsome
    cases hsome

/-- C3 counterexample: on the non-terminal empty 3×3 board, depth-limited
search at depth 0 returns no move, so the best move is absent at a
non-terminal state. -/
theorem best_move_presence_cex :
    ¬ terminal (initial_state 3 3) ∧
    (searchF 0 (initial_state 3 3) evaluate ⊥ ⊤).2 = none ∧
    search (initial_state 3 3) 0 = (qv (evaluate (initial_state 3 3)), none) := by
  refine ⟨by decide, ?_, ?_⟩
  · with_unfolding_all decide
  · unfold search searchF
    rw [if_neg (by decide : ¬ terminal (initial_state 3 3))]

/-! ### C4: node counts -/

theorem countMMF_applyU_fuel (s : State) (a : Move) :
    countMMF (s.m * s.m - s.moves) (applyU s a) = countMM (applyU s a) := by
  unfold countMM
  simp only [applyU_m, applyU_moves]
  rw [(by omega : s.m * s.m + 1 - (s.moves + 1) = s.m * s.m - s.moves)]

theorem countMM_of_terminal {s : State} (hm : s.moves ≤ s.m * s.m) (ht : terminal s) :
    countMM s = 1 := by
  unfold countMM
  rw [(by omega : s.m * s.m + 1 - s.moves = (s.m * s.m - s.moves) + 1)]
  simp [countMMF, ht]

theorem countMM_of_nonterminal {s : State} (hw : WF s) (ht : ¬ terminal s) :
    countMM s = 1 + ((lexSort (actions s)).map (fun a => countMM (applyU s a))).sum := by
  have hm := moves_le_of_WF hw
  unfold countMM
  rw [(by omega : s.m * s.m + 1 - s.moves = (s.m * s.m - s.moves) + 1)]
  simp only [countMMF, ht, if_false]
  congr 1
  exact congrArg List.sum (List.map_congr_left (fun a _ => countMMF_applyU_fuel s a))

theorem abcLoopX_congr {r1 r2 : State → Val → Val → Val × Nat} {s : State} {ms : List Move}
    (h : ∀ a ∈ ms, ∀ al be, r1 (applyU s a) al be = r2 (applyU s a) al be) :
    ∀ al be best bm n, abcLoopX r1 s ms al be best bm n = abcLoopX r2 s ms al be best bm n := by
  induction ms with
  | nil => intro al be best bm n; rfl
  | cons a rest ih =>
    intro al be best bm n
    have ih' := ih (fun b hb => h b (List.mem_cons_of_mem _ hb))
    simp only [abcLoopX]
    rw [h a (List.mem_cons_self a rest)]
    split
    · split
      · rfl
      · exact ih' _ _ _ _ _
    · split
      · rfl
      · exact ih' _ _ _ _ _

theorem abcLoopO_congr {r1 r2 : State → Val → Val → Val × Nat} {s : State} {ms : List Move}
    (h : ∀ a ∈ ms, ∀ al be, r1 (applyU s a) al be = r2 (applyU s a) al be) :
    ∀ al be best bm n, abcLoopO r1 s ms al be best bm n = abcLoopO r2 s ms al be best bm n := by
  induction ms with
  | nil => intro al be best bm n; rfl
  | cons a rest ih =>
    intro al be best bm n
    have ih' := ih (fun b hb => h b (List.mem_cons_of_mem _ hb))
    simp only [abcLoopO]
    rw [h a (List.mem_cons_self a rest)]
    split
    · split
      · rfl
      · exact ih' _ _ _ _ _
    · split
      · rfl
      · exact ih' _ _ _ _ _

theorem minimax_abCF_of_terminal {s : State} (hm : s.moves ≤ s.m * s.m) (ht : terminal s)
    (al be : Val) (ord : Bool) :
    minimax_abCF (s.m * s.m + 1 - s.moves) s al be ord = ((qv (utilityQ s), none), 1) := by
  rw [(by omega : s.m * s.m + 1 - s.moves = (s.m * s.m - s.moves) + 1)]
  simp [minimax_abCF, ht]

theorem minimax_abCF_of_nonterminal {s : State} (hw : WF s) (ht : ¬ terminal s)
    (al be : Val) (ord : Bool) :
    minimax_abCF (s.m * s.m + 1 - s.moves) s al be ord =
      (let ms := if ord then order_moves s (actions s) true else lexSort (actions s)
       let recur := fun t a' b' =>
         ((minimax_abCF (t.m * t.m + 1 - t.moves) t a' b' ord).1.1,
          (minimax_abCF (t.m * t.m + 1 - t.moves) t a' b' ord).2)
       if player s = Player.X then abcLoopX recur s ms al be ⊥ none 1
       else abcLoopO recur s ms al be ⊤ none 1) := by
  have hm := moves_le_of_WF hw
  rw [(by omega : s.m * s.m + 1 - s.moves = (s.m * s.m - s.moves) + 1)]
  simp only [minimax_abCF, ht, if_false]
  have hcong : ∀ (ms : List Move), ∀ a ∈ ms, ∀ al' be',
      (fun t a' b' => ((minimax_abCF (s.m * s.m - s.moves) t a' b' ord).1.1,
        (minimax_abCF (s.m * s.m - s.moves) t a' b' ord).2)) (applyU s a) al' be' =
      (fun t a' b' => ((minimax_abCF (t.m * t.m + 1 - t.moves) t a' b' ord).1.1,
        (minimax_abCF (t.m * t.m + 1 - t.moves) t a' b' ord).2)) (applyU s a) al' be' := by
    intro ms a _ al' be'
    simp only [minimax_abCF_applyU_fuel]
  split
  · exact abcLoopX_congr (hcong _) _ _ _ _ _
  · exact abcLoopO_congr (hcong _) _ _ _ _ _

theorem abcLoopX_count (recur : State → Val → Val → Val × Nat) (s : State)
    (B : Move → Nat) :
    ∀ (ms : List Move), (∀ a ∈ ms, ∀ al be, (recur (applyU s a) al be).2 ≤ B a) →
      ∀ (al be best : Val) (bm : Option Move) (n : Nat),
        (abcLoopX recur s ms al be best bm n).2 ≤ n + (ms.map B).sum := by
  intro ms
  induction ms with
  | nil => intro _ al be best bm n; simp [abcLoopX]
  | cons a rest ih =>
    intro hb al be best bm n
    have hba := hb a (List.mem_cons_self a rest) al be
    have ih' := ih (fun b h => hb b (List.mem_cons_of_mem _ h))
    simp only [abcLoopX, List.map_cons, List.sum_cons]
    split
    · split
      · exact (by omega :
          n + (recur (applyU s a) al be).2 ≤ n + (B a + (rest.map B).sum))
      · exact le_trans (ih' _ _ _ _ _) (by omega)
    · split
      · exact (by omega :
          n + (recur (applyU s a) al be).2 ≤ n + (B a + (rest.map B).sum))
      · exact le_trans (ih' _ _ _ _ _) (by omega)

theorem abcLoopO_count (recur : State → Val → Val → Val × Nat) (s : State)
    (B : Move → Nat) :
    ∀ (ms : List Move), (∀ a ∈ ms, ∀ al be, (recur (applyU s a) al be).2 ≤ B a) →
      ∀ (al be best : Val) (bm : Option Move) (n : Nat),
        (abcLoopO recur s ms al be best bm n).2 ≤ n + (ms.map B).sum := by
  intro ms
  induction ms with
  | nil => intro _ al be best bm n; simp [abcLoopO]
  | cons a rest ih =>
    intro hb al be best bm n
    have hba := hb a (List.mem_cons_self a rest) al be
    have ih' := ih (fun b h => hb b (List.mem_cons_of_mem _ h))
    simp only [abcLoopO, List.map_cons, List.sum_cons]
    split
    · split
      · exact (by omega :
          n + (recur (applyU s a) al be).2 ≤ n + (B a + (rest.map B).sum))
      · exact le_trans (ih' _ _ _ _ _) (by omega)
    · split
      · exact (by omega :
          n + (recur (applyU s a) al be).2 ≤ n + (B a + (rest.map B).sum))
      · exact le_trans (ih' _ _ _ _ _) (by omega)

/-- The alpha-beta node count never exceeds the plain minimax node count,
for any window and either ordering. -/
theorem countAB_le_countMM :
    ∀ (n : Nat) (s : State) (al be : Val) (ord : Bool),
      s.m * s.m - s.moves ≤ n → WF s → countAB s al be ord ≤ countMM s := by
  intro n
  induction n with
  | zero =>
    intro s al be ord hn hw
    have ht : terminal s := Or.inr (by have := moves_le_of_WF hw; omega)
    unfold countAB
    rw [minimax_abCF_of_terminal (moves_le_of_WF hw) ht,
      countMM_of_terminal (moves_le_of_WF hw) ht]
  | succ n ih =>
    intro s al be ord hn hw
    by_cases ht : terminal s
    · unfold countAB
      rw [minimax_abCF_of_terminal (moves_le_of_WF hw) ht,
        countMM_of_terminal (moves_le_of_WF hw) ht]
    · have hmlt : s.moves < s.m * s.m := by
        have := moves_le_of_WF hw
        rcases lt_or_eq_of_le this with h | h
        · exact h
        · exact absurd (Or.inr h) ht
      have hperm := order_moves_perm_actions s ord
      have hpermlex : (if ord then order_moves s (actions s) true
          else lexSort (actions s)).Perm (lexSort (actions s)) :=
        hperm.trans (lexSort_perm (actions s)).symm
      have hbound : ∀ a ∈ (if ord then order_moves s (actions s) true
          else lexSort (actions s)), ∀ al' be' : Val,
          ((fun t a' b' => ((minimax_abCF (t.m * t.m + 1 - t.moves) t a' b' ord).1.1,
            (minimax_abCF (t.m * t.m + 1 - t.moves) t a' b' ord).2)) (applyU s a) al' be').2 ≤
          countMM (applyU s a) := by
        intro a ha al' be'
        have ha' : a ∈ actions s := hperm.mem_iff.mp ha
        exact ih (applyU s a) al' be' ord
          (by simp only [applyU_m, applyU_moves]; omega) (WF_applyU hw ha')
      have hsum : ((if ord then order_moves s (actions s) true
            else lexSort (actions s)).map (fun a => countMM (applyU s a))).sum =
          ((lexSort (actions s)).map (fun a => countMM (applyU s a))).sum :=
        (hpermlex.map _).sum_eq
      unfold countAB
      rw [minimax_abCF_of_nonterminal hw ht al be ord,
        countMM_of_nonterminal hw ht]
      simp only
      split
      · calc (abcLoopX _ s _ al be ⊥ none 1).2
            ≤ 1 + ((if ord then order_moves s (actions s) true
                else lexSort (actions s)).map (fun a => countMM (applyU s a))).sum :=
              abcLoopX_count _ s (fun a => countMM (applyU s a)) _ hbound al be ⊥ none 1
          _ = 1 + ((lexSort (actions s)).map (fun a => countMM (applyU s a))).sum := by
              rw [hsum]
      · calc (abcLoopO _ s _ al be ⊤ none 1).2
            ≤ 1 + ((if ord then order_moves s (actions s) true
                else lexSort (actions s)).map (fun a => countMM (applyU s a))).sum :=
              abcLoopO_count _ s (fun a => countMM (applyU s a)) _ hbound al be ⊤ none 1
          _ = 1 + ((lexSort (actions s)).map (fun a => countMM (applyU s a))).sum := by
              rw [hsum]

/-- C4 amended: on well-formed states alpha-beta explores at most as many
nodes as plain minimax, with or without heuristic ordering; but heuristic
ordering does not monotonically improve on lexicographic order (see the
counterexample). -/
theorem node_count_spec (s : State) (hw : WF s) :
    ∀ ord : Bool, countAB s ⊥ ⊤ ord ≤ countMM s :=
  fun ord => countAB_le_countMM (s.m * s.m - s.moves) s ⊥ ⊤ ord (le_refl _) hw

/-- A mid-game 3×3 position (O to move) on which heuristic move ordering
makes alpha-beta explore strictly more nodes (24) than lexicographic
ordering (19). -/
def sOrderCex : State :=
  { board := [[some Player.X, none, some Player.X],
              [some Player.O, none, none],
              [none, some Player.X, some Player.O]],
    m := 3, k := 3, moves := 5 }

/-- C4 counterexample: the claimed `ordered ≤ unordered` node-count
inequality fails on `sOrderCex` (a reachable, well-formed position): with
heuristic ordering alpha-beta explores strictly more nodes. -/
theorem node_count_cex :
    WF sOrderCex ∧ ¬ terminal sOrderCex ∧
    countAB sOrderCex ⊥ ⊤ false < countAB sOrderCex ⊥ ⊤ true := by
  refine ⟨by decide, by decide, ?_⟩
  with_unfolding_all decide

theorem node_count_spec_witness :
    WF (initial_state 2 2) ∧
    countAB (initial_state 2 2) ⊥ ⊤ true ≤ countMM (initial_state 2 2) := by
  exact ⟨by decide, node_count_spec (initial_state 2 2) (by decide) true⟩

theorem best_move_presence_witness :
    WF (initial_state 2 2) ∧
    ((minimax (initial_state 2 2)).2 = none ↔ terminal (initial_state 2 2)) ∧
    ((searchF 1 (initial_state 2 2) evaluate ⊥ ⊤).2 ≠ none) := by
  refine ⟨by decide, ?_, ?_⟩
  · exact (best_move_presence (initial_state 2 2) (by decide)).1
  · exact (best_move_presence (initial_state 2 2) (by decide)).2.2.2.2 0 evaluate (by decide)

/-! ### C8: win detection versus k-in-a-row runs -/

/-- Spec-side (from the claim's words): a window of `k` consecutive cells of
line `l`, starting at offset `i`, all marked `p`. -/
def lineRun (l : List Cell) (p : Player) (i k : Nat) : Prop :=
  i + k ≤ l.length ∧ ∀ j < k, l.getD (i + j) none = some p

instance (l : List Cell) (p : Player) (i k : Nat) : Decidable (lineRun l p i k) := by
  unfold lineRun
  exact inferInstance

theorem getD_append_left {l₁ l₂ : List Cell} {n : Nat} (h : n < l₁.length) :
    (l₁ ++ l₂).getD n none = l₁.getD n none := by
  simp only [List.getD_eq_getElem?_getD, List.getElem?_append_left h]

theorem getD_append_right {l₁ l₂ : List Cell} {n : Nat} (h : l₁.length ≤ n) :
    (l₁ ++ l₂).getD n none = l₂.getD (n - l₁.length) none := by
  simp only [List.getD_eq_getElem?_getD, List.getElem?_append_right h]

theorem checkAux_cons (k : Nat) (cur : Cell) (cnt : Nat) (cell : Cell) (rest : List Cell) :
    checkAux k cur cnt (cell :: rest) =
      if cell ≠ none ∧ cell = cur then
        (if k ≤ cnt + 1 then cur else checkAux k cur (cnt + 1) rest)
      else checkAux k cell (if cell = none then 0 else 1) rest := rfl

/-- The run-length scan only reports `p` when the full line really holds `k`
consecutive `p` marks: the scan state `(cur, cnt)` always describes the last
`cnt` cells of the processed prefix `pre`. -/
theorem checkAux_sound (k : Nat) (p : Player) :
    ∀ (rest pre : List Cell) (cur : Cell) (cnt : Nat),
      cnt ≤ pre.length →
      (∀ j < cnt, pre.getD (pre.length - cnt + j) none = cur) →
      checkAux k cur cnt rest = some p →
      ∃ i, lineRun (pre ++ rest) p i k := by
  intro rest
  induction rest with
  | nil =>
    intro pre cur cnt _ _ h
    exact absurd h (by simp [checkAux])
  | cons cell rest ih =>
    intro pre cur cnt hcnt hinv h
    rw [checkAux_cons] at h
    by_cases hc : cell ≠ none ∧ cell = cur
    · rw [if_pos hc] at h
      by_cases hk2 : k ≤ cnt + 1
      · rw [if_pos hk2] at h
        refine ⟨pre.length + 1 - k, ?_, ?_⟩
        · simp only [List.length_append, List.length_cons, List.length_nil]
          omega
        · intro j hj
          by_cases hidx : pre.length + 1 - k + j < pre.length
          · rw [getD_append_left hidx]
            have h2 := hinv (pre.length + 1 - k + j - (pre.length - cnt)) (by omega)
            rw [show pre.length - cnt + (pre.length + 1 - k + j - (pre.length - cnt)) =
              pre.length + 1 - k + j by omega] at h2
            rw [h2]
            exact h
          · rw [show pre.length + 1 - k + j = pre.length by omega,
              getD_append_right (le_refl _), Nat.sub_self, List.getD_cons_zero, hc.2]
            exact h
      · rw [if_neg hk2] at h
        have hinv' : ∀ j < cnt + 1,
            (pre ++ [cell]).getD ((pre ++ [cell]).length - (cnt + 1) + j) none = cur := by
          intro j hj
          rcases Nat.lt_or_ge j cnt with hj' | hj'
          · rw [show (pre ++ [cell]).length - (cnt + 1) + j = pre.length - cnt + j by
              simp only [List.length_append, List.length_cons, List.length_nil]; omega]
            rw [getD_append_left (by omega)]
            exact hinv j hj'
          · have hj'' : j = cnt := by omega
            subst hj''
            rw [show (pre ++ [cell]).length - (j + 1) + j = pre.length by
              simp only [List.length_append, List.length_cons, List.length_nil]; omega]
            rw [getD_append_right (le_refl _), Nat.sub_self, List.getD_cons_zero]
            exact hc.2
        have hres := ih (pre ++ [cell]) cur (cnt + 1)
          (by simp only [List.length_append, List.length_cons, List.length_nil]; omega) hinv' h
        rwa [List.append_assoc, List.singleton_append] at hres
    · rw [if_neg hc] at h
      have hinv' : ∀ j < (if cell = none then 0 else 1),
          (pre ++ [cell]).getD
            ((pre ++ [cell]).length - (if cell = none then 0 else 1) + j) none = cell := by
        intro j hj
        by_cases hcn : cell = none
        · rw [if_pos hcn] at hj
          omega
        · rw [if_neg hcn] at hj
          have hj0 : j = 0 := by omega
          subst hj0
          rw [if_neg hcn, show (pre ++ [cell]).length - 1 + 0 = pre.length by
            simp only [List.length_append, List.length_cons, List.length_nil]; omega]
          rw [getD_append_right (le_refl _), Nat.sub_self, List.getD_cons_zero]
      have hres := ih (pre ++ [cell]) cell (if cell = none then 0 else 1)
        (by by_cases hcn : cell = none <;> simp [hcn]) hinv' h
      rwa [List.append_assoc, List.singleton_append] at hres

/-- Once the scan is mid-run (`cur = some p`, count `cnt`) and at least
`k - cnt` more `p` cells follow immediately, it must report a winner. -/
theorem checkAux_runUp (k : Nat) (p : Player) :
    ∀ (rest : List Cell) (cnt j : Nat),
      1 ≤ j → j ≤ rest.length → (∀ idx < j, rest.getD idx none = some p) →
      k ≤ cnt + j →
      checkAux k (some p) cnt rest ≠ none := by
  intro rest
  induction rest with
  | nil =>
    intro cnt j h1 h2 _ _
    simp only [List.length_nil] at h2
    omega
  | cons cell rest ih =>
    intro cnt j h1 h2 hcells hk
    have hcell : cell = some p := by
      have := hcells 0 (by omega)
      simpa using this
    rw [checkAux_cons, if_pos ⟨by simp [hcell], hcell⟩]
    by_cases hk1 : k ≤ cnt + 1
    · rw [if_pos hk1]
      simp
    · rw [if_neg hk1]
      exact ih (cnt + 1) (j - 1) (by omega)
        (by simp only [List.length_cons] at h2; omega)
        (fun idx hidx => by
          have := hcells (idx + 1) (by omega)
          simpa using this)
        (by omega)

/-- If a `k`-window of `p` marks sits anywhere in the unprocessed suffix, the
scan reports some winner (for `k ≥ 2`), whatever its current state. -/
theorem checkAux_complete (k : Nat) (p : Player) (hk : 2 ≤ k) :
    ∀ (rest : List Cell) (cur : Cell) (cnt i : Nat),
      i + k ≤ rest.length → (∀ j < k, rest.getD (i + j) none = some p) →
      checkAux k cur cnt rest ≠ none := by
  intro rest
  induction rest with
  | nil =>
    intro cur cnt i hlen _
    simp only [List.length_nil] at hlen
    omega
  | cons cell rest ih =>
    intro cur cnt i hlen hcells
    match i with
    | 0 =>
      have hcell : cell = some p := by
        have := hcells 0 (by omega)
        simpa using this
      rw [checkAux_cons]
      by_cases hc : cell ≠ none ∧ cell = cur
      · rw [if_pos hc]
        have hcur : cur = some p := by
          rw [← hc.2]
          exact hcell
        by_cases hk1 : k ≤ cnt + 1
        · rw [if_pos hk1, hcur]
          simp
        · rw [if_neg hk1, hcur]
          exact checkAux_runUp k p rest (cnt + 1) (k - 1) (by omega)
            (by simp only [List.length_cons] at hlen; omega)
            (fun idx hidx => by
              have := hcells (idx + 1) (by omega)
              simpa using this)
            (by omega)
      · rw [if_neg hc, hcell, if_neg (by simp : ¬ (some p : Cell) = none)]
        exact checkAux_runUp k p rest 1 (k - 1) (by omega)
          (by simp only [List.length_cons] at hlen; omega)
          (fun idx hidx => by
            have := hcells (idx + 1) (by omega)
            simpa using this)
          (by omega)
    | i' + 1 =>
      have hlen' : i' + k ≤ rest.length := by
        simp only [List.length_cons] at hlen
        omega
      have hcells' : ∀ j < k, rest.getD (i' + j) none = some p := fun j hj => by
        have := hcells j hj
        rw [show i' + 1 + j = (i' + j) + 1 by omega] at this
        simpa [List.getD_cons_succ] using this
      rw [checkAux_cons]
      by_cases hc : cell ≠ none ∧ cell = cur
      · rw [if_pos hc]
        by_cases hk1 : k ≤ cnt + 1
        · rw [if_pos hk1, ← hc.2]
          exact hc.1
        · rw [if_neg hk1]
          exact ih cur (cnt + 1) i' hlen' hcells'
      · rw [if_neg hc]
        exact ih cell (if cell = none then 0 else 1) i' hlen' hcells'

/-- `_check_line` reports `p` only when the line holds a `k`-run of `p`. -/
theorem check_line_sound {l : List Cell} {k : Nat} {p : Player}
    (h : check_line l k = some p) : ∃ i, lineRun l p i k := by
  unfold check_line at h
  by_cases hlen : l.length < k
  · rw [if_pos hlen] at h
    exact absurd h (by simp)
  · rw [if_neg hlen] at h
    have := checkAux_sound k p l [] none 0 (by simp) (by omega) h
    simpa using this

/-- For `k ≥ 2`, `_check_line` cannot miss a `k`-run. -/
theorem check_line_complete {l : List Cell} {k : Nat} {p : Player} (hk : 2 ≤ k)
    {i : Nat} (h : lineRun l p i k) : check_line l k ≠ none := by
  unfold check_line
  rw [if_neg (show ¬ l.length < k by have := h.1; omega)]
  exact checkAux_complete k p hk l none 0 i h.1 h.2

/-- Spec-side (from the claim's words): player `p` owns `k` consecutive marks
in some row, column, diagonal, or anti-diagonal of the board. -/
def hasWin (s : State) (p : Player) : Prop :=
  (∃ r < s.m, ∃ c < s.m, c + s.k ≤ s.m ∧ ∀ i < s.k, cellAt s r (c + i) = some p) ∨
  (∃ c < s.m, ∃ r < s.m, r + s.k ≤ s.m ∧ ∀ i < s.k, cellAt s (r + i) c = some p) ∨
  (∃ r < s.m, ∃ c < s.m, r + s.k ≤ s.m ∧ c + s.k ≤ s.m ∧
    ∀ i < s.k, cellAt s (r + i) (c + i) = some p) ∨
  (∃ r < s.m, ∃ c < s.m, r + s.k ≤ s.m ∧ s.k ≤ c + 1 ∧
    ∀ i < s.k, cellAt s (r + i) (c - i) = some p)

instance (s : State) (p : Player) : Decidable (hasWin s p) := by
  unfold hasWin
  exact inferInstance

theorem getD_map_range {n : Nat} (f : Nat → Cell) {j : Nat} (h : j < n) :
    ((List.range n).map f).getD j none = f j := by
  rw [List.getD_eq_getElem?_getD, List.getElem?_map, List.getElem?_range h]
  rfl

theorem mem_diagAnchors {s : State} {a b : Nat} :
    (a, b) ∈ diagAnchors s ↔ a < s.m + 1 - s.k ∧ b < s.m + 1 - s.k := by
  unfold diagAnchors
  simp only [List.mem_flatMap, List.mem_map, List.mem_range, Prod.mk.injEq]
  constructor
  · rintro ⟨x, hx, y, hy, hxa, hyb⟩
    omega
  · rintro ⟨ha, hb⟩
    exact ⟨a, ha, b, hb, rfl, rfl⟩

theorem mem_adiagAnchors {s : State} {a b : Nat} :
    (a, b) ∈ adiagAnchors s ↔ a < s.m + 1 - s.k ∧ s.k - 1 ≤ b ∧ b < s.m := by
  unfold adiagAnchors
  simp only [List.mem_flatMap, List.mem_map, List.mem_range, Prod.mk.injEq]
  constructor
  · rintro ⟨x, hx, y, hy, hxa, hyb⟩
    omega
  · rintro ⟨ha, hb1, hb2⟩
    exact ⟨a, ha, b - (s.k - 1), by omega, rfl, by omega⟩

/-- `winner` reports `p` only when `p` really owns a `k`-run (for `k ≥ 2`). -/
theorem winner_sound (s : State) (hw : WF s) (hk : 2 ≤ s.k) (p : Player)
    (h : winner s = some p) : hasWin s p := by
  obtain ⟨l, hl, hcl⟩ := List.exists_of_findSome?_eq_some h
  obtain ⟨i, hrun⟩ := check_line_sound hcl
  unfold allLines at hl
  rcases List.mem_append.1 hl with hl3 | hlad
  · rcases List.mem_append.1 hl3 with hl2 | hld
    · rcases List.mem_append.1 hl2 with hlrow | hlcol
      · -- row
        obtain ⟨r, hr, hlr⟩ := List.mem_iff_getElem.1 hlrow
        have hrm : r < s.m := hw.1 ▸ hr
        have hlen : l.length = s.m := hw.2.1 l hlrow
        have hlboard : s.board.getD r [] = l := by
          rw [List.getD_eq_getElem?_getD, List.getElem?_eq_getElem hr]
          exact hlr
        have h1 := hrun.1
        left
        refine ⟨r, hrm, i, by omega, by omega, ?_⟩
        intro j hj
        have hc := hrun.2 j hj
        show (s.board.getD r []).getD (i + j) none = some p
        rw [hlboard]
        exact hc
      · -- column
        obtain ⟨c, hc, rfl⟩ := List.mem_map.1 hlcol
        have hcm : c < s.m := List.mem_range.1 hc
        have h1 := hrun.1
        simp only [colLine, List.length_map, List.length_range] at h1
        refine Or.inr (Or.inl ⟨c, hcm, i, by omega, by omega, ?_⟩)
        intro j hj
        have hcj := hrun.2 j hj
        unfold colLine at hcj
        rwa [getD_map_range _ (by omega)] at hcj
    · -- diagonal
      obtain ⟨⟨a, b⟩, hmem, rfl⟩ := List.mem_map.1 hld
      obtain ⟨ha, hb⟩ := mem_diagAnchors.1 hmem
      have h1 := hrun.1
      simp only [diagLine, List.length_map, List.length_range] at h1
      have hbound : a + i + s.k ≤ s.m ∧ b + i + s.k ≤ s.m := by
        have hma := le_max_left a b
        have hmb := le_max_right a b
        rcases max_choice a b with hM | hM <;> rw [hM] at h1 hma hmb <;> omega
      refine Or.inr (Or.inr (Or.inl ⟨a + i, by omega, b + i, by omega, by omega, by omega, ?_⟩))
      intro j hj
      have hcj := hrun.2 j hj
      unfold diagLine at hcj
      rw [getD_map_range _ (by omega)] at hcj
      rw [show a + i + j = a + (i + j) by omega, show b + i + j = b + (i + j) by omega]
      exact hcj
  · -- anti-diagonal
    obtain ⟨⟨a, b⟩, hmem, rfl⟩ := List.mem_map.1 hlad
    obtain ⟨ha, hb1, hb2⟩ := mem_adiagAnchors.1 hmem
    have h1 := hrun.1
    simp only [adiagLine, List.length_map, List.length_range] at h1
    have h1a : i + s.k ≤ s.m - a := le_trans h1 (min_le_left _ _)
    have h1b : i + s.k ≤ b + 1 := le_trans h1 (min_le_right _ _)
    refine Or.inr (Or.inr (Or.inr ⟨a + i, by omega, b - i, by omega, by omega, by omega, ?_⟩))
    intro j hj
    have hcj := hrun.2 j hj
    unfold adiagLine at hcj
    rw [getD_map_range _ (by omega)] at hcj
    rw [show a + i + j = a + (i + j) by omega, show b - i - j = b - (i + j) by omega]
    exact hcj

theorem row_mem_allLines {s : State} {r : Nat} (h : r < s.board.length) :
    s.board.getD r [] ∈ allLines s := by
  unfold allLines
  simp only [List.mem_append]
  refine Or.inl (Or.inl (Or.inl ?_))
  rw [List.getD_eq_getElem?_getD, List.getElem?_eq_getElem h]
  exact List.getElem_mem h

theorem col_mem_allLines {s : State} {c : Nat} (h : c < s.m) :
    colLine s c ∈ allLines s := by
  unfold allLines
  simp only [List.mem_append]
  exact Or.inl (Or.inl (Or.inr (List.mem_map.2 ⟨c, List.mem_range.2 h, rfl⟩)))

theorem diag_mem_allLines {s : State} {a b : Nat} (h : (a, b) ∈ diagAnchors s) :
    diagLine s a b ∈ allLines s := by
  unfold allLines
  simp only [List.mem_append]
  exact Or.inl (Or.inr (List.mem_map.2 ⟨(a, b), h, rfl⟩))

theorem adiag_mem_allLines {s : State} {a b : Nat} (h : (a, b) ∈ adiagAnchors s) :
    adiagLine s a b ∈ allLines s := by
  unfold allLines
  simp only [List.mem_append]
  exact Or.inr (List.mem_map.2 ⟨(a, b), h, rfl⟩)

/-- `winner` cannot miss a `k`-run (for `k ≥ 2`): one of the scanned lines
contains the run as a window, and `_check_line` finds it. -/
theorem winner_complete (s : State) (hw : WF s) (hk : 2 ≤ s.k) (p : Player)
    (h : hasWin s p) : winner s ≠ none := by
  intro hnone
  unfold winner at hnone
  have hall := List.findSome?_eq_none_iff.1 hnone
  rcases h with ⟨r, hr, c, hc, hbd, hcells⟩ | ⟨c, hc, r, hr, hbd, hcells⟩ |
    ⟨r, hr, c, hc, hrk, hck, hcells⟩ | ⟨r, hr, c, hc, hrk, hkc, hcells⟩
  · -- row run
    have hrb : r < s.board.length := by
      rw [hw.1]
      exact hr
    have hmem : s.board.getD r [] ∈ allLines s := row_mem_allLines hrb
    have hlen : (s.board.getD r []).length = s.m := by
      refine hw.2.1 _ ?_
      rw [List.getD_eq_getElem?_getD, List.getElem?_eq_getElem hrb]
      exact List.getElem_mem hrb
    refine @check_line_complete _ _ p hk c ⟨by omega, ?_⟩ (hall _ hmem)
    intro j hj
    exact hcells j hj
  · -- column run
    have hmem := @col_mem_allLines s c hc
    refine @check_line_complete _ _ p hk r ⟨?_, ?_⟩ (hall _ hmem)
    · simp only [colLine, List.length_map, List.length_range]
      omega
    · intro j hj
      unfold colLine
      rw [getD_map_range _ (by omega)]
      exact hcells j hj
  · -- diagonal run
    rcases le_total r c with hrc | hrc
    · -- anchor (0, c - r), window offset r
      have hmem := diag_mem_allLines ((@mem_diagAnchors s 0 (c - r)).2 (by omega))
      refine @check_line_complete _ _ p hk r ⟨?_, ?_⟩ (hall _ hmem)
      · simp only [diagLine, List.length_map, List.length_range, Nat.zero_max]
        omega
      · intro j hj
        unfold diagLine
        rw [getD_map_range _ (by rw [Nat.zero_max]; omega)]
        rw [show (0 : Nat) + (r + j) = r + j by omega, show c - r + (r + j) = c + j by omega]
        exact hcells j hj
    · -- anchor (r - c, 0), window offset c
      have hmem := diag_mem_allLines ((@mem_diagAnchors s (r - c) 0).2 (by omega))
      refine @check_line_complete _ _ p hk c ⟨?_, ?_⟩ (hall _ hmem)
      · simp only [diagLine, List.length_map, List.length_range, Nat.max_zero]
        omega
      · intro j hj
        unfold diagLine
        rw [getD_map_range _ (by rw [Nat.max_zero]; omega)]
        rw [show r - c + (c + j) = r + j by omega, show (0 : Nat) + (c + j) = c + j by omega]
        exact hcells j hj
  · -- anti-diagonal run
    rcases le_total r (s.m - 1 - c) with hrc | hrc
    · -- anchor (0, c + r), window offset r
      have hmem := adiag_mem_allLines ((@mem_adiagAnchors s 0 (c + r)).2 (by omega))
      refine @check_line_complete _ _ p hk r ⟨?_, ?_⟩ (hall _ hmem)
      · simp only [adiagLine, List.length_map, List.length_range]
        omega
      · intro j hj
        unfold adiagLine
        rw [getD_map_range _ (by omega)]
        rw [show (0 : Nat) + (r + j) = r + j by omega, show c + r - (r + j) = c - j by omega]
        exact hcells j hj
    · -- anchor (r - (m - 1 - c), m - 1), window offset m - 1 - c
      have hmem := adiag_mem_allLines
        ((@mem_adiagAnchors s (r - (s.m - 1 - c)) (s.m - 1)).2 (by omega))
      refine @check_line_complete _ _ p hk (s.m - 1 - c) ⟨?_, ?_⟩ (hall _ hmem)
      · simp only [adiagLine, List.length_map, List.length_range]
        omega
      · intro j hj
        unfold adiagLine
        rw [getD_map_range _ (by omega)]
        rw [show r - (s.m - 1 - c) + (s.m - 1 - c + j) = r + j by omega,
          show s.m - 1 - (s.m - 1 - c + j) = c - j by omega]
        exact hcells j hj

/-- A 1×1 board with `k = 1`, fully played: X owns a 1-run. -/
def sK1 : State :=
  { board := [[some Player.X]], m := 1, k := 1, moves := 1 }

/-- **C8, counterexample to the frozen claim.**  With `k = 1` a lone mark is a
`k`-run in its row (and column), yet `winner` reports nobody: the run-length
scan only checks the threshold after extending an existing run, so runs of
length 1 are never reported.  The claim's "for every state ... if and only
if" fails on this well-formed state. -/
theorem winner_claim_cex :
    WF sK1 ∧ hasWin sK1 Player.X ∧ winner sK1 = none := by
  refine ⟨by decide, ?_, by decide⟩
  decide

/-- **C8 (amended: `k ≥ 2`, and the biconditional under a unique winner).**
For every well-formed state with `k ≥ 2`: `winner` reports only players
owning `k` consecutive marks in a row, column, diagonal or anti-diagonal;
it reports somebody whenever such a run exists; and when the two players do
not both own runs (in particular in any reachable game), `winner` reports
`p` exactly when `p` owns a run. -/
theorem winner_spec (s : State) (hw : WF s) (hk : 2 ≤ s.k) :
    (∀ p, winner s = some p → hasWin s p) ∧
    ((∃ p, hasWin s p) → winner s ≠ none) ∧
    (¬ (hasWin s Player.X ∧ hasWin s Player.O) →
      ∀ p, (winner s = some p ↔ hasWin s p)) := by
  refine ⟨winner_sound s hw hk, ?_, ?_⟩
  · rintro ⟨p, hp⟩
    exact winner_complete s hw hk p hp
  · intro hnb p
    constructor
    · exact winner_sound s hw hk p
    · intro hp
      have hne := winner_complete s hw hk p hp
      cases hq : winner s with
      | none => exact absurd hq hne
      | some q =>
        have hq' := winner_sound s hw hk q hq
        cases p <;> cases q
        · rfl
        · exact absurd ⟨hp, hq'⟩ hnb
        · exact absurd ⟨hq', hp⟩ hnb
        · rfl

theorem winner_spec_witness :
    WF sWinX ∧ 2 ≤ sWinX.k ∧
      ((∀ p, winner sWinX = some p → hasWin sWinX p) ∧
       ((∃ p, hasWin sWinX p) → winner sWinX ≠ none) ∧
       (¬ (hasWin sWinX Player.X ∧ hasWin sWinX Player.O) →
         ∀ p, (winner sWinX = some p ↔ hasWin sWinX p))) :=
  ⟨by decide, by decide, winner_spec sWinX (by decide) (by decide)⟩

/-! ### C9: the evaluator versus the claimed per-window sum -/

/-- Spec-side (from the claim's words): the score of one k-cell window —
`(X-count)²` if it holds X marks and no O marks, `-(O-count)²` in the
symmetric case, `0` when blocked (or empty). -/
def windowScore (w : List Cell) : Int :=
  let xc : Nat := w.countP (· = some Player.X)
  let oc : Nat := w.countP (· = some Player.O)
  if 0 < xc ∧ oc = 0 then (xc : Int) ^ 2
  else if 0 < oc ∧ xc = 0 then -((oc : Int) ^ 2)
  else 0

/-- Spec-side: every contiguous k-cell window of every row. -/
def specRowWindows (s : State) : List (List Cell) :=
  (List.range s.m).flatMap fun r =>
    (List.range (s.m + 1 - s.k)).map fun c =>
      (List.range s.k).map fun j => cellAt s r (c + j)

/-- Spec-side: every contiguous k-cell window of every column. -/
def specColWindows (s : State) : List (List Cell) :=
  (List.range s.m).flatMap fun c =>
    (List.range (s.m + 1 - s.k)).map fun r =>
      (List.range s.k).map fun j => cellAt s (r + j) c

/-- Spec-side: every k-cell diagonal window on the board, each counted once. -/
def specDiagWindows (s : State) : List (List Cell) :=
  (List.range (s.m + 1 - s.k)).flatMap fun r =>
    (List.range (s.m + 1 - s.k)).map fun c =>
      (List.range s.k).map fun j => cellAt s (r + j) (c + j)

/-- Spec-side: every k-cell anti-diagonal window on the board, each counted
once (top cell at row `r`, column `t + (k - 1)`). -/
def specADiagWindows (s : State) : List (List Cell) :=
  (List.range (s.m + 1 - s.k)).flatMap fun r =>
    (List.range (s.m - (s.k - 1))).map fun t =>
      (List.range s.k).map fun j => cellAt s (r + j) (t + (s.k - 1) - j)

/-- Spec-side (from the claim's words): the sum over the four window families
of the per-window score, plus the center bonus. -/
def evalSpec (s : State) : ℚ :=
  ((((specRowWindows s ++ specColWindows s ++ specDiagWindows s ++
      specADiagWindows s).map windowScore).sum : Int) : ℚ) + centerBonus s

theorem count_sequences_short {l : List Cell} {k : Nat} (h : l.length < k) :
    count_sequences l k = (0, 0) := by
  unfold count_sequences
  rw [show l.length + 1 - k = 0 by omega]
  rfl

theorem csStep_diff (acc : Int × Int) (w : List Cell) :
    (csStep acc w).1 - (csStep acc w).2 = acc.1 - acc.2 + windowScore w := by
  simp only [csStep, windowScore]
  split_ifs <;> ring

theorem foldl_csStep_diff (w : Nat → List Cell) :
    ∀ (is : List Nat) (acc : Int × Int),
      (is.foldl (fun acc i => csStep acc (w i)) acc).1 -
        (is.foldl (fun acc i => csStep acc (w i)) acc).2 =
      acc.1 - acc.2 + ((is.map fun i => windowScore (w i)).sum) := by
  intro is
  induction is with
  | nil =>
    intro acc
    simp
  | cons i rest ih =>
    intro acc
    rw [List.foldl_cons, List.map_cons, List.sum_cons, ih]
    show (csStep acc (w i)).1 - (csStep acc (w i)).2 +
        ((rest.map fun i => windowScore (w i)).sum) =
      acc.1 - acc.2 + (windowScore (w i) + (rest.map fun i => windowScore (w i)).sum)
    rw [csStep_diff]
    ring

/-- `_count_sequences` computes exactly the claimed per-window score sum of
its line, one contribution per contiguous k-window. -/
theorem count_sequences_diff (l : List Cell) (k : Nat) :
    (count_sequences l k).1 - (count_sequences l k).2 =
      ((List.range (l.length + 1 - k)).map fun i =>
        windowScore ((l.drop i).take k)).sum := by
  unfold count_sequences
  rw [foldl_csStep_diff (fun i => (l.drop i).take k) (List.range (l.length + 1 - k)) (0, 0)]
  simp

/-- On a line that is exactly one window long, `_count_sequences` computes
precisely the claimed window score. -/
theorem count_sequences_single {l : List Cell} {k : Nat} (h : l.length = k) :
    ((count_sequences l k).1 : Int) - (count_sequences l k).2 = windowScore l := by
  rw [count_sequences_diff, show l.length + 1 - k = 1 by omega,
    show List.range 1 = [0] from rfl, List.map_cons, List.map_nil, List.sum_cons,
    List.sum_nil, List.drop_zero, List.take_of_length_le (by omega), add_zero]

theorem drop_take_window {l : List Cell} {i k : Nat} (h : i + k ≤ l.length) :
    (l.drop i).take k = (List.range k).map fun j => l.getD (i + j) none := by
  apply List.ext_getElem
  · simp only [List.length_take, List.length_drop, List.length_map, List.length_range]
    omega
  · intro n h1 h2
    have hn : n < k := by simpa using h2
    rw [List.getElem_take, List.getElem_drop, List.getElem_map, List.getElem_range,
      List.getD_eq_getElem?_getD, List.getElem?_eq_getElem (by omega), Option.getD_some]

theorem sum_map_flatMap {α β : Type} (g : α → List β) (f : β → Int) (l : List α) :
    ((l.flatMap g).map f).sum = (l.map fun a => ((g a).map f).sum).sum := by
  rw [List.map_flatMap, List.flatMap_def, List.sum_flatten, List.map_map]
  rfl

theorem map_getD_range {α β : Type} (l : List α) (d : α) (f : α → β) :
    (List.range l.length).map (fun r => f (l.getD r d)) = l.map f := by
  induction l with
  | nil => rfl
  | cons a t ih =>
    rw [List.length_cons, List.range_succ_eq_map, List.map_cons, List.map_map]
    simp only [Function.comp_def, List.getD_cons_zero, Nat.succ_eq_add_one,
      List.getD_cons_succ, List.map_cons]
    rw [ih]

theorem map_range_getD_self (l : List Cell) :
    (List.range l.length).map (fun j => l.getD j none) = l := by
  have h := map_getD_range l none id
  simpa using h

/-- Rows: the source's per-row scan equals the claimed per-window sum on
every well-formed state — each row window is scanned exactly once. -/
theorem evalRows_eq_spec (s : State) (hw : WF s) :
    evalRows s = ((specRowWindows s).map windowScore).sum := by
  unfold evalRows specRowWindows
  rw [sum_map_flatMap]
  rw [← map_getD_range s.board []
    (fun row => (count_sequences row s.k).1 - (count_sequences row s.k).2), hw.1]
  refine congrArg List.sum (List.map_congr_left ?_)
  intro r hr
  have hrm : r < s.m := List.mem_range.1 hr
  have hlen : (s.board.getD r []).length = s.m := rowLen_of_WF hw.1 hw.2.1 hrm
  rw [count_sequences_diff, hlen, List.map_map]
  refine congrArg List.sum (List.map_congr_left ?_)
  intro c hc
  have hcm : c < s.m + 1 - s.k := List.mem_range.1 hc
  rw [drop_take_window (show c + s.k ≤ (s.board.getD r []).length by omega)]
  rfl

/-- Columns: same unconditional statement for the column family. -/
theorem evalCols_eq_spec (s : State) (hw : WF s) :
    evalCols s = ((specColWindows s).map windowScore).sum := by
  unfold evalCols specColWindows
  rw [sum_map_flatMap]
  refine congrArg List.sum (List.map_congr_left ?_)
  intro c hc
  have hcm : c < s.m := List.mem_range.1 hc
  have hlen : (colLine s c).length = s.m := by
    simp only [colLine, List.length_map, List.length_range]
  rw [count_sequences_diff, hlen, List.map_map]
  refine congrArg List.sum (List.map_congr_left ?_)
  intro r hr
  have hrm : r < s.m + 1 - s.k := List.mem_range.1 hr
  rw [drop_take_window (show r + s.k ≤ (colLine s c).length by omega)]
  refine congrArg windowScore (List.map_congr_left ?_)
  intro j hj
  have hjk : j < s.k := List.mem_range.1 hj
  unfold colLine
  rw [getD_map_range _ (show r + j < s.m by omega)]

/-- Diagonals: when `m ≤ k` there is at most one anchored segment (the main
diagonal) and it is exactly one window long, so the source's anchored scan
agrees with the claimed per-window sum. -/
theorem evalDiags_eq_spec (s : State) (hw : WF s) (hm : s.m ≤ s.k) :
    evalDiags s = ((specDiagWindows s).map windowScore).sum := by
  rcases lt_or_eq_of_le hm with hlt | heq
  · have h0 : s.m + 1 - s.k = 0 := by omega
    have h1 : specDiagWindows s = [] := by
      unfold specDiagWindows
      rw [h0]
      rfl
    have h2 : diagAnchors s = [] := by
      unfold diagAnchors
      rw [h0]
      rfl
    rw [h1]
    unfold evalDiags
    rw [h2]
    rfl
  · have h1 : s.m + 1 - s.k = 1 := by omega
    have h2 : diagAnchors s = [(0, 0)] := by
      unfold diagAnchors
      rw [h1]
      rfl
    have h3 : specDiagWindows s =
        [(List.range s.k).map fun j => cellAt s (0 + j) (0 + j)] := by
      unfold specDiagWindows
      rw [h1]
      rfl
    have h5 : (diagLine s 0 0).length = s.k := by
      simp only [diagLine, List.length_map, List.length_range]
      omega
    have h4 : diagLine s 0 0 = (List.range s.k).map fun j => cellAt s (0 + j) (0 + j) := by
      unfold diagLine
      rw [show s.m - max 0 0 = s.k by rw [Nat.max_self]; omega]
    rw [h3]
    unfold evalDiags
    rw [h2]
    simp only [List.map_cons, List.map_nil, List.sum_cons, List.sum_nil]
    show ((count_sequences (diagLine s 0 0) s.k).1 : Int) -
        (count_sequences (diagLine s 0 0) s.k).2 + 0 =
      windowScore ((List.range s.k).map fun j => cellAt s (0 + j) (0 + j)) + 0
    rw [← h4, count_sequences_single h5]

/-- Anti-diagonals: same statement for the anti-diagonal family. -/
theorem evalADiags_eq_spec (s : State) (hw : WF s) (hm : s.m ≤ s.k) :
    evalADiags s = ((specADiagWindows s).map windowScore).sum := by
  rcases lt_or_eq_of_le hm with hlt | heq
  · have h0 : s.m + 1 - s.k = 0 := by omega
    have h1 : specADiagWindows s = [] := by
      unfold specADiagWindows
      rw [h0]
      rfl
    have h2 : adiagAnchors s = [] := by
      unfold adiagAnchors
      rw [h0]
      rfl
    rw [h1]
    unfold evalADiags
    rw [h2]
    rfl
  · rcases Nat.eq_zero_or_pos s.k with hk0 | hk1
    · have ha : s.m + 1 - s.k = 1 := by omega
      have hb : s.m - (s.k - 1) = 0 := by omega
      have h1 : specADiagWindows s = [] := by
        unfold specADiagWindows
        rw [ha, hb]
        rfl
      have h2 : adiagAnchors s = [] := by
        unfold adiagAnchors
        rw [ha, hb]
        rfl
      rw [h1]
      unfold evalADiags
      rw [h2]
      rfl
    · have ha : s.m + 1 - s.k = 1 := by omega
      have hb : s.m - (s.k - 1) = 1 := by omega
      have h2 : adiagAnchors s = [(0, 0 + (s.k - 1))] := by
        unfold adiagAnchors
        rw [ha, hb]
        rfl
      have h3 : specADiagWindows s =
          [(List.range s.k).map fun j => cellAt s (0 + j) (0 + (s.k - 1) - j)] := by
        unfold specADiagWindows
        rw [ha, hb]
        rfl
      have h5 : (adiagLine s 0 (0 + (s.k - 1))).length = s.k := by
        simp only [adiagLine, List.length_map, List.length_range]
        omega
      have h4 : adiagLine s 0 (0 + (s.k - 1)) =
          (List.range s.k).map fun j => cellAt s (0 + j) (0 + (s.k - 1) - j) := by
        unfold adiagLine
        rw [show min (s.m - 0) (0 + (s.k - 1) + 1) = s.k by omega]
      rw [h3]
      unfold evalADiags
      rw [h2]
      simp only [List.map_cons, List.map_nil, List.sum_cons, List.sum_nil]
      show ((count_sequences (adiagLine s 0 (0 + (s.k - 1))) s.k).1 : Int) -
          (count_sequences (adiagLine s 0 (0 + (s.k - 1))) s.k).2 + 0 =
        windowScore ((List.range s.k).map fun j => cellAt s (0 + j) (0 + (s.k - 1) - j)) + 0
      rw [← h4, count_sequences_single h5]

/-- A 4×4, k = 3 position: X has played (2,2) only. -/
def s9 : State :=
  { board := [[none, none, none, none],
              [none, none, none, none],
              [none, none, some Player.X, none],
              [none, none, none, none]],
    m := 4, k := 3, moves := 1 }

/-- **C9, counterexample to the frozen claim.**  On a 4×4 board with k = 3
the anchored diagonal segment from (1,1) re-scans the window
(1,1),(2,2),(3,3), which the length-4 segment from (0,0) already scanned, so
`evaluate` counts that window twice: it returns 17/2 where the claimed
per-window sum is 15/2. -/
theorem evaluate_claim_cex :
    WF s9 ∧ ¬ terminal s9 ∧ evaluate s9 = 17 / 2 ∧ evalSpec s9 = 15 / 2 ∧
      evaluate s9 ≠ evalSpec s9 := by
  with_unfolding_all decide

/-- **C9 (amended).**  For every well-formed state: on terminal states
`evaluate` returns exactly the integer utility; on non-terminal states the
claimed per-window description is exactly what `evaluate` computes for the
row and column families (each row and column window is scanned once); and
the full four-family per-window description holds whenever `m ≤ k`.  For
`k < m` the claim's diagonal and anti-diagonal sums are wrong: the source
sums over anchored segments, and segments longer than `k` share windows
with other anchored segments, which are then counted several times. -/
theorem evaluate_spec (s : State) (hw : WF s) :
    (terminal s → ∃ u : Int, utility s = some u ∧ evaluate s = (u : ℚ)) ∧
    (¬ terminal s → evaluate s =
      ((((specRowWindows s ++ specColWindows s).map windowScore).sum
        + evalDiags s + evalADiags s : Int) : ℚ) + centerBonus s) ∧
    (¬ terminal s → s.m ≤ s.k → evaluate s = evalSpec s) := by
  refine ⟨?_, ?_, ?_⟩
  · intro ht
    have hu : ∃ u : Int, utility s = some u := by
      unfold utility
      rw [if_pos ht]
      cases winner s with
      | none => exact ⟨0, rfl⟩
      | some q => cases q <;> exact ⟨_, rfl⟩
    obtain ⟨u, hu⟩ := hu
    refine ⟨u, hu, ?_⟩
    unfold evaluate
    rw [if_pos ht, hu]
  · intro ht
    unfold evaluate
    rw [if_neg ht]
    rw [List.map_append, List.sum_append, ← evalRows_eq_spec s hw, ← evalCols_eq_spec s hw]
  · intro ht hm
    unfold evaluate
    rw [if_neg ht]
    unfold evalSpec
    have key : evalRows s + evalCols s + evalDiags s + evalADiags s =
        ((specRowWindows s ++ specColWindows s ++ specDiagWindows s ++
          specADiagWindows s).map windowScore).sum := by
      simp only [List.map_append, List.sum_append]
      rw [evalRows_eq_spec s hw, evalCols_eq_spec s hw,
        evalDiags_eq_spec s hw hm, evalADiags_eq_spec s hw hm]
    rw [key]

theorem evaluate_spec_witness :
    WF (initial_state 3 3) ∧
      ((terminal (initial_state 3 3) → ∃ u : Int,
          utility (initial_state 3 3) = some u ∧
          evaluate (initial_state 3 3) = (u : ℚ)) ∧
       (¬ terminal (initial_state 3 3) → evaluate (initial_state 3 3) =
          ((((specRowWindows (initial_state 3 3) ++ specColWindows (initial_state 3 3)).map
              windowScore).sum
            + evalDiags (initial_state 3 3) + evalADiags (initial_state 3 3) : Int) : ℚ) +
          centerBonus (initial_state 3 3)) ∧
       (¬ terminal (initial_state 3 3) →
          (initial_state 3 3).m ≤ (initial_state 3 3).k →
          evaluate (initial_state 3 3) = evalSpec (initial_state 3 3))) :=
  ⟨by decide, evaluate_spec (initial_state 3 3) (by decide)⟩

end TTT
